import Mathlib

/-!
# Detective Quest: clue tree, suspect ledger and exploration session

A shallow embedding of `algoritmos_avancados.c` and the properties of its three
cooperating structures: the binary search tree of collected clues (`NoPista`),
the chained hash table from clue to suspect (`HashTable`) and the navigation loop
over the mansion (`explorarSalas`).

Conventions of the embedding.

* A C string is the list of its bytes before the terminating NUL, each byte as the
  value of an `unsigned char` (1..255).  A `const char *` that the code tests
  against `NULL` is an `Option Str`.
* A `NoPista *` is a value of `NoPista` (`nulo` is `NULL`).  A `Sala` is a room
  struct and a `Sala *` is a `SalaPtr`.
* A bucket chain (`HashEntry *` linked through `prox`) is a `List HashEntry`, head
  first; the table is the list of its bucket chains.
* Heap allocation is assumed to succeed (the code exits the process otherwise).
-/

namespace DetectiveQuest

/-! ## Configuration and strings -/

/-- Number of buckets of the hash table (`#define HASH_SIZE 17`). -/
def HASH_SIZE : Nat := 17

/-- Size of the name buffer of a room (`#define MAX_NOME 64`). -/
def MAX_NOME : Nat := 64

/-- Size of the clue buffers (`#define MAX_PISTA 128`). -/
def MAX_PISTA : Nat := 128

/-- Content of a C string: its bytes before the terminating NUL. -/
abbrev Str := List Nat

/-- The bytes of an ASCII literal. -/
def ascii (s : String) : Str := s.toList.map Char.toNat

/-- Sign of `strcmp(a, b)`: bytes are compared as `unsigned char`, and a string that
ends first is the smaller one. -/
def strcmp : Str → Str → Int
  | [], [] => 0
  | [], _ :: _ => -1
  | _ :: _, [] => 1
  | a :: as, b :: bs => if a < b then -1 else if b < a then 1 else strcmp as bs

/-- Content of a buffer of `n` bytes after `strncpy(dst, src, n-1); dst[n-1] = 0`:
the first `n-1` bytes of `src`. -/
def copiaLimitada (n : Nat) (src : Str) : Str := src.take (n - 1)

/-! ## The tree of collected clues -/

/-- A `NoPista *`: `nulo` is `NULL`, `no chave esq dir` points to a node. -/
inductive NoPista where
  | nulo : NoPista
  | no (chave : Str) (esq dir : NoPista) : NoPista
deriving DecidableEq, Repr

/-- Ordered insertion of a clue into the tree (`inserirPista`); returns the root. -/
def inserirPista : NoPista → Option Str → NoPista
  | raiz, none => raiz
  | raiz, some pista =>
    if pista = [] then raiz
    else
      match raiz with
      | .nulo => .no (copiaLimitada MAX_PISTA pista) .nulo .nulo
      | .no chave esq dir =>
        let cmp := strcmp pista chave
        if cmp < 0 then .no chave (inserirPista esq (some pista)) dir
        else if cmp > 0 then .no chave esq (inserirPista dir (some pista))
        else .no chave esq dir

/-- The keys in the order `listarPistas` prints them (in-order traversal). -/
def listarPistas : NoPista → List Str
  | .nulo => []
  | .no chave esq dir => listarPistas esq ++ chave :: listarPistas dir

/-- The tree after inserting the clues of `ps` one after another. -/
def inserirTodas (t : NoPista) (ps : List Str) : NoPista :=
  ps.foldl (fun a p => inserirPista a (some p)) t

/-- Strictly ascending in `strcmp` order. -/
def Crescente (l : List Str) : Prop := l.Pairwise (fun a b => strcmp a b < 0)

instance (l : List Str) : Decidable (Crescente l) := by
  unfold Crescente; infer_instance

/-! ## The suspect ledger -/

/-- The two implementation-defined choices the hash depends on: whether plain `char`
is signed, and the width in bits of `unsigned long`. -/
structure Abi where
  charSigned : Bool
  ulongBits : Nat
deriving DecidableEq, Repr

/-- The x86-64 System V target: signed `char`, 64-bit `unsigned long`. -/
def Abi.lp64 : Abi := ⟨true, 64⟩

/-- Value of `c` after `c = *s++` with `int c`: the byte read through a plain `char`. -/
def charParaInt (abi : Abi) (b : Nat) : Int :=
  if abi.charSigned = true ∧ 128 ≤ b then (b : Int) - 256 else (b : Int)

/-- One round `h = ((h << 5) + h) + c` in `unsigned long` arithmetic. -/
def passoHash (abi : Abi) (h b : Nat) : Nat :=
  let w := 2 ^ abi.ulongBits
  let desloc := (h * 2 ^ 5) % w
  let soma := (desloc + h) % w
  (((soma : Int) + charParaInt abi b) % (w : Int)).toNat

/-- Bucket index of a string (`hashString`). -/
def hashString (abi : Abi) (s : Str) : Nat :=
  (s.foldl (passoHash abi) (5381 % 2 ^ abi.ulongBits)) % HASH_SIZE

/-- An entry of a bucket chain: clue and suspect (the `prox` link is the list tail). -/
structure HashEntry where
  chave : Str
  suspeito : Str
deriving DecidableEq, Repr

/-- The table: the chains `v[0]`, `v[1]`, ... in index order. -/
structure HashTable where
  v : List (List HashEntry)
deriving DecidableEq, Repr

/-- A table has `HASH_SIZE` buckets, as the array `v[HASH_SIZE]` does. -/
def HashTable.bemFormada (ht : HashTable) : Prop := ht.v.length = HASH_SIZE

instance (ht : HashTable) : Decidable ht.bemFormada := by
  unfold HashTable.bemFormada; infer_instance

/-- The table after `inicializarHash`: every bucket is `NULL`. -/
def inicializarHash : HashTable := ⟨List.replicate HASH_SIZE []⟩

/-- The search loop of `inserirNaHash` over a chain: the chain with the suspect of the
first entry whose key is `pista` replaced, or `none` when the loop ends without a
match. -/
def sobrescrever (pista suspeito : Str) : List HashEntry → Option (List HashEntry)
  | [] => none
  | p :: prox =>
    if strcmp p.chave pista = 0 then some ({ p with suspeito := suspeito } :: prox)
    else (sobrescrever pista suspeito prox).map (fun c => p :: c)

/-- Associates a clue with a suspect (`inserirNaHash`). -/
def inserirNaHash (abi : Abi) (ht : HashTable) (pista suspeito : Option Str) : HashTable :=
  match pista, suspeito with
  | some pista, some suspeito =>
    if pista = [] then ht
    else
      let idx := hashString abi pista
      let cadeia := ht.v.getD idx []
      match sobrescrever pista suspeito cadeia with
      | some cadeia' => ⟨ht.v.set idx cadeia'⟩
      | none => ⟨ht.v.set idx (⟨pista, suspeito⟩ :: cadeia)⟩
  | _, _ => ht

/-- The search loop of `encontrarSuspeito` over a chain. -/
def buscarNaCadeia (pista : Str) : List HashEntry → Option Str
  | [] => none
  | p :: prox => if strcmp p.chave pista = 0 then some p.suspeito else buscarNaCadeia pista prox

/-- The suspect associated with a clue, `none` for `NULL` (`encontrarSuspeito`). -/
def encontrarSuspeito (abi : Abi) (ht : HashTable) (pista : Option Str) : Option Str :=
  match pista with
  | none => none
  | some pista => buscarNaCadeia pista (ht.v.getD (hashString abi pista) [])

/-- Tables produced from `inicializarHash` by calls of `inserirNaHash`. -/
inductive Alcancavel (abi : Abi) : HashTable → Prop where
  | inicial : Alcancavel abi inicializarHash
  | inserir {ht : HashTable} (pista suspeito : Option Str) :
      Alcancavel abi ht → Alcancavel abi (inserirNaHash abi ht pista suspeito)

/-- The table after the calls `inserirNaHash(k, v)` for the pairs of `chamadas`, in
order. -/
def inserirVarias (abi : Abi) (ht : HashTable) (chamadas : List (Str × Str)) : HashTable :=
  chamadas.foldl (fun t c => inserirNaHash abi t (some c.1) (some c.2)) ht

/-- The keys of a chain, head first. -/
def chaves (cadeia : List HashEntry) : List Str := cadeia.map (fun e => e.chave)

/-- Number of entries with key `k` in the whole table, all chains together. -/
def ocorrencias (ht : HashTable) (k : Str) : Nat :=
  (ht.v.map (fun cadeia => (chaves cadeia).countP (fun c => c = k))).sum

/-- The chain of the bucket of `pista` after `inserirNaHash`: the chain with the match
overwritten, or with a new entry in front. -/
def cadeiaNova (pista suspeito : Str) (cadeia : List HashEntry) : List HashEntry :=
  match sobrescrever pista suspeito cadeia with
  | some cadeia' => cadeia'
  | none => ⟨pista, suspeito⟩ :: cadeia

/-- Invariant of the tables built by `inserirNaHash`: `HASH_SIZE` buckets, every key
non-empty and stored in the bucket of its hash, no key twice in a chain. -/
def Integra (abi : Abi) (ht : HashTable) : Prop :=
  ht.v.length = HASH_SIZE ∧
    (∀ j, ∀ k ∈ chaves (ht.v.getD j []), hashString abi k = j ∧ k ≠ []) ∧
    (∀ j, (chaves (ht.v.getD j [])).Nodup)

/-- Last-write-wins association map, stated on the sequence of writes: the value of
the last pair of `chamadas` whose key is `q`, if any. -/
def ultimaEscrita (chamadas : List (Str × Str)) (q : Str) : Option Str :=
  (chamadas.reverse.find? (fun c => c.1 = q)).map (fun c => c.2)

/-! ## The accusation -/

/-- Number of collected clues whose suspect is `suspeito` (`verificarSuspeitoFinal`). -/
def verificarSuspeitoFinal (abi : Abi) : NoPista → HashTable → Str → Nat
  | .nulo, _, _ => 0
  | .no chave esq dir, ht, suspeito =>
    let left := verificarSuspeitoFinal abi esq ht suspeito
    let right := verificarSuspeitoFinal abi dir ht suspeito
    let count :=
      match encontrarSuspeito abi ht (some chave) with
      | some s => if strcmp s suspeito = 0 then 1 else 0
      | none => 0
    left + right + count

/-- What `main` reports after reading the accused name. -/
inductive Desfecho where
  | entradaInvalida : Desfecho
  | validada (escolha : Str) (cont : Nat) : Desfecho
  | insuficiente (escolha : Str) (cont : Nat) : Desfecho
deriving DecidableEq, Repr

/-- The accusation phase of `main`: `escolha` is what `scanf` stored, `none` when it
read nothing. -/
def faseAcusacao (abi : Abi) (bst : NoPista) (ht : HashTable) (escolha : Option Str) :
    Desfecho :=
  match escolha with
  | none => .entradaInvalida
  | some escolha =>
    let cont := verificarSuspeitoFinal abi bst ht escolha
    if cont ≥ 2 then .validada escolha cont else .insuficiente escolha cont

/-! ## The mansion -/

mutual
/-- A room struct: name, clue (empty when the room has none) and the two links. -/
inductive Sala where
  | mk (nome pista : Str) (esq dir : SalaPtr) : Sala
deriving DecidableEq, Repr
/-- A `Sala *`: `nulo` is `NULL`. -/
inductive SalaPtr where
  | nulo : SalaPtr
  | aponta (s : Sala) : SalaPtr
deriving DecidableEq, Repr
end

/-- The field `nome`. -/
def Sala.nome : Sala → Str
  | .mk nome _ _ _ => nome

/-- The field `pista`. -/
def Sala.pista : Sala → Str
  | .mk _ pista _ _ => pista

/-- The field `esq`. -/
def Sala.esq : Sala → SalaPtr
  | .mk _ _ esq _ => esq

/-- The field `dir`. -/
def Sala.dir : Sala → SalaPtr
  | .mk _ _ _ dir => dir

/-- The room after the assignment `s->esq = p`. -/
def Sala.comEsq : Sala → SalaPtr → Sala
  | .mk nome pista _ dir, p => .mk nome pista p dir

/-- The room after the assignment `s->dir = p`. -/
def Sala.comDir : Sala → SalaPtr → Sala
  | .mk nome pista esq _, p => .mk nome pista esq p

mutual
/-- Every string of the map fits its buffer with the terminating NUL, as the arrays
`nome[MAX_NOME]` and `pista[MAX_PISTA]` force. -/
def Sala.bemFormada : Sala → Bool
  | .mk nome pista esq dir =>
    decide (nome.length < MAX_NOME) && decide (pista.length < MAX_PISTA) &&
      esq.bemFormada && dir.bemFormada
/-- Every room reachable through the pointer is well formed. -/
def SalaPtr.bemFormada : SalaPtr → Bool
  | .nulo => true
  | .aponta s => s.bemFormada
end

/-- A new room without neighbours (`criarSala`). -/
def criarSala (nome : Str) (pista : Option Str) : Sala :=
  let n := copiaLimitada MAX_NOME nome
  let p :=
    match pista with
    | some pista => if pista ≠ [] then copiaLimitada MAX_PISTA pista else []
    | none => []
  .mk n p .nulo .nulo

/-- The clue of SalaC, "marca de fumaça no tapete", in the UTF-8 bytes of the source
file (the cedilla is the two bytes 195, 167). -/
def pistaFumaca : Str := ascii "marca de fuma" ++ [195, 167] ++ ascii "a no tapete"

/-- The fixed mansion and the fixed associations (`montarMapa`): the root that the
function stores in `*raiz`, and the table after the five insertions. -/
def montarMapa (abi : Abi) (ht : HashTable) : SalaPtr × HashTable :=
  let hall := criarSala (ascii "Hall") (some (ascii "pegadas molhadas"))
  let a := criarSala (ascii "SalaA") (some (ascii "fio de cabelo ruivo"))
  let b := criarSala (ascii "SalaB") (some [])
  let c := criarSala (ascii "SalaC") (some pistaFumaca)
  let d := criarSala (ascii "SalaD") (some (ascii "copo com pegadas digitais"))
  let e := criarSala (ascii "SalaE") (some (ascii "bilhete rasgado"))
  let a := (a.comEsq (.aponta c)).comDir (.aponta d)
  let b := b.comDir (.aponta e)
  let hall := (hall.comEsq (.aponta a)).comDir (.aponta b)
  let ht := inserirNaHash abi ht (some (ascii "pegadas molhadas")) (some (ascii "Sr. Verde"))
  let ht := inserirNaHash abi ht (some (ascii "fio de cabelo ruivo")) (some (ascii "Sra. Rosa"))
  let ht := inserirNaHash abi ht (some pistaFumaca) (some (ascii "Sr. Azul"))
  let ht := inserirNaHash abi ht (some (ascii "copo com pegadas digitais"))
    (some (ascii "Sra. Rosa"))
  let ht := inserirNaHash abi ht (some (ascii "bilhete rasgado")) (some (ascii "Sr. Verde"))
  (.aponta hall, ht)

/-! ## The exploration session -/

/-- The messages of `explorarSalas` that report a result (the menu and the prompt are
not recorded). -/
inductive Evento where
  | comeca (nome : Str) : Evento
  | salaAtual (nome : Str) : Evento
  | encontrou (pista : Str) : Evento
  | presente (pista : Str) : Evento
  | associada (suspeito : Str) : Evento
  | nenhumaPista : Evento
  | saindo : Evento
  | indoEsquerda (nome : Str) : Evento
  | semEsquerda : Evento
  | indoDireita (nome : Str) : Evento
  | semDireita : Evento
  | voltando (nome : Str) : Evento
  | naRaiz : Evento
  | invalido : Evento
deriving DecidableEq, Repr

/-- Capacity of the path stack (`Sala *stack[128]`). -/
def TAM_PILHA : Nat := 128

/-- The variables of `explorarSalas` at the head of the loop: the current room, the
cells `stack[top]`, ..., `stack[0]` (so `top + 1` is the length), the collected clues
`*bstPistas`, and the messages printed so far. -/
structure Sessao where
  atual : Sala
  stack : List Sala
  bst : NoPista
  saida : List Evento
deriving DecidableEq, Repr

/-- The session after printing one more message. -/
def Sessao.registrar (st : Sessao) (e : Evento) : Sessao :=
  { st with saida := st.saida ++ [e] }

/-- The search loop of `explorarSalas` for a clue in the tree (the value of `achou`). -/
def buscaPista (pista : Str) : NoPista → Bool
  | .nulo => false
  | .no chave esq dir =>
    let cmp := strcmp pista chave
    if cmp = 0 then true
    else if cmp < 0 then buscaPista pista esq
    else buscaPista pista dir

/-- The first half of the loop body: the room is shown and its clue, if any, is
collected unless the search finds it. -/
def visitar (abi : Abi) (ht : HashTable) (st : Sessao) : Sessao :=
  let st := st.registrar (.salaAtual st.atual.nome)
  if st.atual.pista ≠ [] then
    let st :=
      if buscaPista st.atual.pista st.bst = false then
        { st.registrar (.encontrou st.atual.pista) with
          bst := inserirPista st.bst (some st.atual.pista) }
      else st.registrar (.presente st.atual.pista)
    match encontrarSuspeito abi ht (some st.atual.pista) with
    | some sus => st.registrar (.associada sus)
    | none => st
  else st.registrar .nenhumaPista

/-- Outcome of the second half of the loop body. -/
inductive Passo where
  | continua (st : Sessao) : Passo
  | saiu (st : Sessao) : Passo
  | indefinido : Passo
deriving DecidableEq, Repr

/-- The second half of the loop body: the command token `cmd` that `scanf` stored is
dispatched on its first byte (115 's', 101 'e', 100 'd', 98 'b').  A push onto a full
stack writes outside the array and is `indefinido`. -/
def comando (st : Sessao) (cmd : Str) : Passo :=
  let c := cmd.headD 0
  if c = 115 then .saiu (st.registrar .saindo)
  else if c = 101 then
    match st.atual.esq with
    | .aponta filho =>
      if st.stack.length < TAM_PILHA then
        .continua { st with stack := st.atual :: st.stack, atual := filho,
                            saida := st.saida ++ [.indoEsquerda filho.nome] }
      else .indefinido
    | .nulo => .continua (st.registrar .semEsquerda)
  else if c = 100 then
    match st.atual.dir with
    | .aponta filho =>
      if st.stack.length < TAM_PILHA then
        .continua { st with stack := st.atual :: st.stack, atual := filho,
                            saida := st.saida ++ [.indoDireita filho.nome] }
      else .indefinido
    | .nulo => .continua (st.registrar .semDireita)
  else if c = 98 then
    match st.stack with
    | topo :: resto =>
      .continua { st with atual := topo, stack := resto,
                          saida := st.saida ++ [.voltando topo.nome] }
    | [] => .continua (st.registrar .naRaiz)
  else .continua (st.registrar .invalido)

/-- The loop of `explorarSalas` on the tokens still to be read: the variables when the
loop is left (by 's' or at the end of the input), `none` when the run is undefined. -/
def laco (abi : Abi) (ht : HashTable) : Sessao → List Str → Option Sessao
  | st, [] => some (visitar abi ht st)
  | st, cmd :: resto =>
    match comando (visitar abi ht st) cmd with
    | .continua st' => laco abi ht st' resto
    | .saiu st' => some st'
    | .indefinido => none

/-- The successive states of the loop at the point where a token is read, that is,
right after each room has been shown. -/
def trajeto (abi : Abi) (ht : HashTable) : Sessao → List Str → List Sessao
  | st, [] => [visitar abi ht st]
  | st, cmd :: resto =>
    visitar abi ht st ::
      match comando (visitar abi ht st) cmd with
      | .continua st' => trajeto abi ht st' resto
      | _ => []

/-- The variables of `explorarSalas` when the loop is entered. -/
def sessaoInicial (raiz : Sala) (bst : NoPista) : Sessao :=
  ⟨raiz, [], bst, [.comeca raiz.nome]⟩

/-- Navigation over the mansion (`explorarSalas`) on the tokens of `entrada`: the
final `*bstPistas` and the messages, `none` when the run is undefined. -/
def explorarSalas (abi : Abi) (raiz : SalaPtr) (bst : NoPista) (ht : HashTable)
    (entrada : List Str) : Option (NoPista × List Evento) :=
  match raiz with
  | .nulo => some (bst, [])
  | .aponta r => (laco abi ht (sessaoInicial r bst) entrada).map (fun st => (st.bst, st.saida))

/-- Every room the session holds (the current one and those on the stack) is well
formed. -/
def Sessao.bemFormada (st : Sessao) : Prop :=
  st.atual.bemFormada = true ∧ ∀ r ∈ st.stack, r.bemFormada = true

/-- The leaf SalaE of the reference map. -/
def salaE : Sala := criarSala (ascii "SalaE") (some (ascii "bilhete rasgado"))

/-- SalaB of the reference map, with SalaE at its right. -/
def salaB : Sala := (criarSala (ascii "SalaB") (some [])).comDir (.aponta salaE)

/-- A leaf room with a clue. -/
def salaFolha : Sala := criarSala (ascii "SalaC") (some pistaFumaca)

/-- A room whose left child is `salaFolha`. -/
def salaPai : Sala :=
  (criarSala (ascii "SalaA") (some (ascii "fio de cabelo ruivo"))).comEsq (.aponta salaFolha)

/-- The states of the loop on the map `salaPai` for the single command left, on the
empty ledger: `salaPai` is shown, then `salaFolha`. -/
def trajetoExemplo : List Sessao :=
  trajeto Abi.lp64 inicializarHash (sessaoInicial salaPai .nulo) [ascii "e"]

/-- The rolling hash over the unbounded naturals, as the specification words it: seed
5381, then `h * 33 + byte` for each byte, the byte taken as its `unsigned char` value. -/
def hashIdeal (s : Str) : Nat := s.foldl (fun h b => h * 33 + b) 5381

/-- The rolling hash in the arithmetic of the code: every round is reduced modulo
`2 ^ ulongBits`, and the byte enters with the value it has when read through a plain
`char`. -/
def hashModular (abi : Abi) (s : Str) : Nat :=
  s.foldl (fun h b => (((h : Int) * 33 + charParaInt abi b) % ((2 ^ abi.ulongBits : Nat) : Int)).toNat)
    (5381 % 2 ^ abi.ulongBits)

/-- Number of entries of the table, all chains together. -/
def totalEntradas (ht : HashTable) : Nat := (ht.v.map List.length).sum

/-- The keys of the whole table: bucket 0 first, each chain head first. -/
def todasChaves (ht : HashTable) : List Str := (ht.v.map chaves).flatten

/-- Capacity of the array of distinct suspects in `main` (`char *suspeitosUnicos[64]`). -/
def TAM_SUSPEITOS : Nat := 64

/-- One turn of the inner loop of `main` over a chain: `acc` is the array
`suspeitosUnicos[0..ns-1]`, `none` once a write has gone outside the array.  The suspect
of the entry is appended unless the scan over the array finds it. -/
def passoSuspeito (acc : Option (List Str)) (p : HashEntry) : Option (List Str) :=
  match acc with
  | none => none
  | some unicos =>
    if unicos.any (fun u => strcmp u p.suspeito = 0) then some unicos
    else if unicos.length < TAM_SUSPEITOS then some (unicos ++ [p.suspeito])
    else none

/-- The list of known suspects that `main` prints: the buckets are scanned in index
order, every chain from its head. -/
def suspeitosUnicos (ht : HashTable) : Option (List Str) :=
  (List.range HASH_SIZE).foldl (fun acc i => (ht.v.getD i []).foldl passoSuspeito acc)
    (some [])

/-- The entries that the scan of `main` meets, in the order it meets them. -/
def entradas (ht : HashTable) : List HashEntry :=
  (List.range HASH_SIZE).flatMap (fun i => ht.v.getD i [])

/-- The two messages that tell the player whether the clue of the room is new
(`encontrou`) or already collected (`presente`). -/
def Evento.ehSinal : Evento → Bool
  | .encontrou _ => true
  | .presente _ => true
  | _ => false

/-- The messages about clues among the printed ones, in order. -/
def sinais (saida : List Evento) : List Evento := saida.filter Evento.ehSinal

mutual
/-- Number of levels of rooms below a room: 0 for a room without neighbours. -/
def Sala.altura : Sala → Nat
  | .mk _ _ esq dir => max esq.altura dir.altura
/-- Number of levels of rooms behind a pointer: 0 for `NULL`. -/
def SalaPtr.altura : SalaPtr → Nat
  | .nulo => 0
  | .aponta s => s.altura + 1
end

/-- The stack `pilha` (top first) lists the proper ancestors of the room `a` in the map
of root `raiz`: `a` is a child of the top, every room of the stack is a child of the one
below it, and the bottom is the root; with an empty stack `a` is the root itself. -/
def ancestrais (raiz : Sala) : Sala → List Sala → Bool
  | a, [] => decide (a = raiz)
  | a, p :: resto =>
    (decide (p.esq = .aponta a) || decide (p.dir = .aponta a)) && ancestrais raiz p resto

/-- The states of the variables of `explorarSalas` on the map of root `raiz`: the state
at the entry of the loop, and every state the two halves of the loop body lead to. -/
inductive SessaoAlcancavel (abi : Abi) (ht : HashTable) (raiz : Sala) : Sessao → Prop where
  | entrada (bst : NoPista) : SessaoAlcancavel abi ht raiz (sessaoInicial raiz bst)
  | visita {st : Sessao} :
      SessaoAlcancavel abi ht raiz st → SessaoAlcancavel abi ht raiz (visitar abi ht st)
  | passo {st st' : Sessao} (cmd : Str) :
      SessaoAlcancavel abi ht raiz st → comando st cmd = .continua st' →
      SessaoAlcancavel abi ht raiz st'

/-- The messages about clues that the specification prescribes for a sequence of
entries into rooms carrying the clue texts `cs`, when the texts of `vistos` have been
collected before: a text is signalled as newly discovered on its first entry and as
already known on every later one. -/
def sinaisEsperados : List Str → List Str → List Evento
  | _, [] => []
  | vistos, c :: cs =>
    (if c ∈ vistos then Evento.presente c else Evento.encontrou c) ::
      sinaisEsperados (c :: vistos) cs

/-- The non-empty clue texts of the rooms shown in the given states, in order. -/
def pistasMostradas (estados : List Sessao) : List Str :=
  (estados.map (fun st => st.atual.pista)).filter (fun c => c ≠ [])

/-- A map of two rooms that carry the same clue text "x": the root and its left
child. -/
def salaDupla : Sala :=
  (criarSala (ascii "Sala1") (some (ascii "x"))).comEsq
    (.aponta (criarSala (ascii "Sala2") (some (ascii "x"))))

/-- The states of the loop on the map `salaDupla` for the single command left, on the
empty ledger. -/
def trajetoDuplo : List Sessao :=
  trajeto Abi.lp64 inicializarHash (sessaoInicial salaDupla .nulo) [ascii "e"]

/-! ## Lemmas on `strcmp` -/

theorem strcmp_self (a : Str) : strcmp a a = 0 := by
  induction a with
  | nil => rfl
  | cons x xs ih => simp [strcmp, ih]

theorem strcmp_eq_zero {a b : Str} (h : strcmp a b = 0) : a = b := by
  induction a generalizing b with
  | nil => cases b with
    | nil => rfl
    | cons y ys => simp [strcmp] at h
  | cons x xs ih => cases b with
    | nil => simp [strcmp] at h
    | cons y ys =>
      simp only [strcmp] at h
      split_ifs at h with h1 h2
      · omega
      · have hxy : x = y := by omega
        rw [hxy, ih h]

theorem strcmp_eq_zero_iff (a b : Str) : strcmp a b = 0 ↔ a = b :=
  ⟨strcmp_eq_zero, fun h => h ▸ strcmp_self a⟩

theorem strcmp_gt_iff (a b : Str) : 0 < strcmp a b ↔ strcmp b a < 0 := by
  induction a generalizing b with
  | nil => cases b <;> simp [strcmp]
  | cons x xs ih => cases b with
    | nil => simp [strcmp]
    | cons y ys =>
      simp only [strcmp]
      split_ifs <;> first | omega | simp | exact ih ys

theorem strcmp_trans {a b c : Str} (h1 : strcmp a b < 0) (h2 : strcmp b c < 0) :
    strcmp a c < 0 := by
  induction a generalizing b c with
  | nil => cases c with
    | nil => cases b <;> simp [strcmp] at h1 h2
    | cons z zs => simp [strcmp]
  | cons x xs ih => cases b with
    | nil => simp [strcmp] at h1
    | cons y ys => cases c with
      | nil => simp [strcmp] at h2
      | cons z zs =>
        simp only [strcmp] at h1 h2 ⊢
        split_ifs at h1 h2 ⊢ <;> first | omega | exact ih h1 h2

theorem strcmp_irrefl (a : Str) : ¬ strcmp a a < 0 := by
  rw [strcmp_self]; decide

/-! ## Lemmas on the clue tree -/

theorem copiaLimitada_curta {p : Str} (h : p.length < MAX_PISTA) :
    copiaLimitada MAX_PISTA p = p := by
  unfold copiaLimitada
  apply List.take_of_length_le
  unfold MAX_PISTA at *
  omega

theorem mem_listar_inserir {t : NoPista} {p x : Str}
    (h : x ∈ listarPistas (inserirPista t (some p))) :
    x = copiaLimitada MAX_PISTA p ∨ x ∈ listarPistas t := by
  induction t with
  | nulo =>
    unfold inserirPista at h
    split_ifs at h with hp
    · exact Or.inr h
    · simp [listarPistas] at h; exact Or.inl h
  | no k l r ihl ihr =>
    unfold inserirPista at h
    split_ifs at h with hp
    · exact Or.inr h
    · simp only [] at h
      split_ifs at h with h1 h2
      · simp only [listarPistas, List.mem_append, List.mem_cons] at h ⊢
        rcases h with h | h | h
        · rcases ihl h with h | h
          · exact Or.inl h
          · exact Or.inr (Or.inl h)
        · exact Or.inr (Or.inr (Or.inl h))
        · exact Or.inr (Or.inr (Or.inr h))
      · simp only [listarPistas, List.mem_append, List.mem_cons] at h ⊢
        rcases h with h | h | h
        · exact Or.inr (Or.inl h)
        · exact Or.inr (Or.inr (Or.inl h))
        · rcases ihr h with h | h
          · exact Or.inl h
          · exact Or.inr (Or.inr (Or.inr h))
      · exact Or.inr h

theorem listar_subset_inserir {t : NoPista} {p : Option Str} {x : Str}
    (h : x ∈ listarPistas t) : x ∈ listarPistas (inserirPista t p) := by
  cases p with
  | none => unfold inserirPista; exact h
  | some p =>
    induction t with
    | nulo => simp [listarPistas] at h
    | no k l r ihl ihr =>
      unfold inserirPista
      split_ifs with hp
      · exact h
      · simp only []
        simp only [listarPistas, List.mem_append, List.mem_cons] at h
        split_ifs with h1 h2
        · simp only [listarPistas, List.mem_append, List.mem_cons]
          rcases h with h | h | h
          · exact Or.inl (ihl h)
          · exact Or.inr (Or.inl h)
          · exact Or.inr (Or.inr h)
        · simp only [listarPistas, List.mem_append, List.mem_cons]
          rcases h with h | h | h
          · exact Or.inl h
          · exact Or.inr (Or.inl h)
          · exact Or.inr (Or.inr (ihr h))
        · simp only [listarPistas, List.mem_append, List.mem_cons]
          exact h

theorem crescente_inserir {t : NoPista} {p : Str} (hp : p.length < MAX_PISTA)
    (h : Crescente (listarPistas t)) :
    Crescente (listarPistas (inserirPista t (some p))) := by
  induction t with
  | nulo =>
    unfold inserirPista
    split_ifs
    · exact h
    · simp [listarPistas, Crescente]
  | no k l r ihl ihr =>
    unfold Crescente at h ihl ihr ⊢
    simp only [listarPistas, List.pairwise_append, List.pairwise_cons, List.mem_cons] at h
    obtain ⟨hl, ⟨hkr, hr⟩, hlr⟩ := h
    unfold inserirPista
    split_ifs with hp0
    · simp only [listarPistas, List.pairwise_append, List.pairwise_cons, List.mem_cons]
      exact ⟨hl, ⟨hkr, hr⟩, hlr⟩
    · simp only []
      split_ifs with h1 h2
      · simp only [listarPistas, List.pairwise_append, List.pairwise_cons, List.mem_cons]
        refine ⟨ihl hl, ⟨hkr, hr⟩, ?_⟩
        intro a ha b hb
        rcases mem_listar_inserir ha with ha | ha
        · rw [ha, copiaLimitada_curta hp]
          rcases hb with hb | hb
          · rw [hb]; exact h1
          · exact strcmp_trans h1 (hkr b hb)
        · exact hlr a ha b hb
      · simp only [listarPistas, List.pairwise_append, List.pairwise_cons, List.mem_cons]
        have hkp : strcmp k p < 0 := (strcmp_gt_iff p k).mp h2
        refine ⟨hl, ⟨?_, ihr hr⟩, ?_⟩
        · intro b hb
          rcases mem_listar_inserir hb with hb | hb
          · rw [hb, copiaLimitada_curta hp]; exact hkp
          · exact hkr b hb
        · intro a ha b hb
          rcases hb with hb | hb
          · exact hlr a ha b (Or.inl hb)
          · rcases mem_listar_inserir hb with hb | hb
            · rw [hb, copiaLimitada_curta hp]
              exact strcmp_trans (hlr a ha k (Or.inl rfl)) hkp
            · exact hlr a ha b (Or.inr hb)
      · simp only [listarPistas, List.pairwise_append, List.pairwise_cons, List.mem_cons]
        exact ⟨hl, ⟨hkr, hr⟩, hlr⟩

theorem crescente_inserirTodas (ps : List Str) (t : NoPista)
    (hps : ∀ p ∈ ps, p.length < MAX_PISTA) (h : Crescente (listarPistas t)) :
    Crescente (listarPistas (inserirTodas t ps)) := by
  induction ps generalizing t with
  | nil => exact h
  | cons p ps ih =>
    unfold inserirTodas
    rw [List.foldl_cons]
    exact ih _ (fun q hq => hps q (List.mem_cons_of_mem _ hq))
      (crescente_inserir (hps p (List.mem_cons_self _ _)) h)

theorem crescente_nodup {l : List Str} (h : Crescente l) : l.Nodup := by
  unfold Crescente at h
  refine List.Pairwise.imp ?_ h
  intro a b hab heq
  rw [heq] at hab
  exact strcmp_irrefl b hab

theorem inserir_inserir (t : NoPista) {k : Str} (hk : k.length < MAX_PISTA) :
    inserirPista (inserirPista t (some k)) (some k) = inserirPista t (some k) := by
  induction t with
  | nulo =>
    by_cases hp : k = []
    · simp [inserirPista, hp]
    · simp [inserirPista, hp, copiaLimitada_curta hk, strcmp_self]
  | no c l r ihl ihr =>
    by_cases hp : k = []
    · simp [inserirPista, hp]
    · by_cases h1 : strcmp k c < 0
      · simp [inserirPista, hp, h1, ihl]
      · by_cases h2 : 0 < strcmp k c
        · simp [inserirPista, hp, h1, h2, ihr]
        · simp [inserirPista, hp, h1, h2]

/-! ## Lemmas on the ledger -/

theorem hashString_lt (abi : Abi) (s : Str) : hashString abi s < HASH_SIZE :=
  Nat.mod_lt _ (by decide)

theorem getD_set_lista {α : Type} (l : List α) (i j : Nat) (a d : α) :
    (l.set i a).getD j d = if i = j ∧ i < l.length then a else l.getD j d := by
  simp only [List.getD_eq_getElem?_getD, List.getElem?_set]
  by_cases hij : i = j
  · subst hij
    by_cases hi : i < l.length
    · simp [hi]
    · have h2 : l[i]? = none := List.getElem?_eq_none (by omega)
      simp [hi, h2]
  · simp [hij]

theorem inserirNaHash_eq (abi : Abi) (ht : HashTable) {p : Str} (s : Str) (hp : p ≠ []) :
    inserirNaHash abi ht (some p) (some s) =
      ⟨ht.v.set (hashString abi p) (cadeiaNova p s (ht.v.getD (hashString abi p) []))⟩ := by
  unfold inserirNaHash cadeiaNova
  simp only [hp, if_false]
  cases sobrescrever p s (ht.v.getD (hashString abi p) []) <;> rfl

theorem chaves_sobrescrever {p s : Str} {c c' : List HashEntry}
    (h : sobrescrever p s c = some c') : chaves c' = chaves c ∧ p ∈ chaves c := by
  induction c generalizing c' with
  | nil => simp [sobrescrever] at h
  | cons e r ih =>
    unfold sobrescrever at h
    split_ifs at h with he
    · have hk : e.chave = p := strcmp_eq_zero he
      simp only [Option.some.injEq] at h
      subst h
      simp [chaves, hk]
    · cases hr : sobrescrever p s r with
      | none => simp [hr] at h
      | some c'' =>
        simp only [hr, Option.map_some', Option.some.injEq] at h
        subst h
        obtain ⟨h1, h2⟩ := ih hr
        unfold chaves at h1 h2 ⊢
        simp only [List.map_cons, h1, List.mem_cons, true_and]
        exact Or.inr h2

theorem sobrescrever_none {p s : Str} {c : List HashEntry}
    (h : sobrescrever p s c = none) : p ∉ chaves c := by
  induction c with
  | nil => simp [chaves]
  | cons e r ih =>
    unfold sobrescrever at h
    split_ifs at h with he
    have hne : e.chave ≠ p := fun hk => he ((strcmp_eq_zero_iff _ _).mpr hk)
    simp only [Option.map_eq_none'] at h
    unfold chaves at ih ⊢
    simp only [List.map_cons, List.mem_cons, not_or]
    exact ⟨fun hk => hne hk.symm, ih h⟩

theorem chaves_cadeiaNova (p s : Str) (c : List HashEntry) :
    chaves (cadeiaNova p s c) = if p ∈ chaves c then chaves c else p :: chaves c := by
  unfold cadeiaNova
  cases h : sobrescrever p s c with
  | none =>
    simp only [if_neg (sobrescrever_none h)]
    rfl
  | some c' =>
    obtain ⟨h1, h2⟩ := chaves_sobrescrever h
    simp only [h1, if_pos h2]

theorem buscar_sobrescrever {p s q : Str} {c c' : List HashEntry}
    (h : sobrescrever p s c = some c') :
    buscarNaCadeia q c' = if q = p then some s else buscarNaCadeia q c := by
  induction c generalizing c' with
  | nil => simp [sobrescrever] at h
  | cons e r ih =>
    unfold sobrescrever at h
    split_ifs at h with he
    · have hk : e.chave = p := strcmp_eq_zero he
      simp only [Option.some.injEq] at h
      subst h
      by_cases hq : q = p
      · simp [buscarNaCadeia, hq, hk, strcmp_self]
      · have hne : ¬ strcmp e.chave q = 0 := fun h0 => hq ((strcmp_eq_zero h0).symm.trans hk)
        simp [buscarNaCadeia, hq, hne]
    · cases hr : sobrescrever p s r with
      | none => simp [hr] at h
      | some c'' =>
        simp only [hr, Option.map_some', Option.some.injEq] at h
        subst h
        simp only [buscarNaCadeia, ih hr]
        by_cases heq : strcmp e.chave q = 0
        · have hq : q ≠ p := fun hqp => he (by rw [← hqp]; exact heq)
          simp [heq, hq]
        · simp [heq]

theorem buscar_cadeiaNova (p s q : Str) (c : List HashEntry) :
    buscarNaCadeia q (cadeiaNova p s c) = if q = p then some s else buscarNaCadeia q c := by
  unfold cadeiaNova
  cases h : sobrescrever p s c with
  | some c' => exact buscar_sobrescrever h
  | none =>
    by_cases hq : q = p
    · simp [buscarNaCadeia, hq, strcmp_self]
    · have hne : ¬ strcmp p q = 0 := fun h0 => hq (strcmp_eq_zero h0).symm
      simp [buscarNaCadeia, hq, hne]

theorem buscar_isSome_iff (q : Str) (c : List HashEntry) :
    (buscarNaCadeia q c).isSome = true ↔ q ∈ chaves c := by
  induction c with
  | nil => simp [buscarNaCadeia, chaves]
  | cons e r ih =>
    unfold buscarNaCadeia chaves
    unfold chaves at ih
    by_cases he : strcmp e.chave q = 0
    · obtain rfl := strcmp_eq_zero he
      simp [he]
    · have hne : ¬ q = e.chave := fun h => he (by rw [h]; exact strcmp_self _)
      simp [he, hne, ih]

/-- On a table of `HASH_SIZE` buckets, an insertion sets the lookup of its key and
leaves the lookup of every other key as it was. -/
theorem encontrar_inserir (abi : Abi) (ht : HashTable) (hbf : ht.bemFormada)
    {p : Str} (s q : Str) (hp : p ≠ []) :
    encontrarSuspeito abi (inserirNaHash abi ht (some p) (some s)) (some q) =
      if q = p then some s else encontrarSuspeito abi ht (some q) := by
  rw [inserirNaHash_eq abi ht s hp]
  unfold encontrarSuspeito
  simp only [getD_set_lista]
  have hlt : hashString abi p < ht.v.length := by
    rw [hbf]; exact hashString_lt abi p
  by_cases hh : hashString abi p = hashString abi q
  · simp only [hh, true_and] at hlt ⊢
    simp only [hlt, if_true]
    rw [buscar_cadeiaNova]
  · have hq : q ≠ p := fun h => hh (by rw [h])
    simp [hh, hq]

theorem bemFormada_inserir (abi : Abi) (ht : HashTable) (p s : Option Str)
    (hbf : ht.bemFormada) : (inserirNaHash abi ht p s).bemFormada := by
  cases p with
  | none => simpa [inserirNaHash] using hbf
  | some p =>
    cases s with
    | none => simpa [inserirNaHash] using hbf
    | some s =>
      by_cases hp : p = []
      · simpa [inserirNaHash, hp] using hbf
      · rw [inserirNaHash_eq abi ht s hp]
        unfold HashTable.bemFormada at hbf ⊢
        simpa using hbf

theorem integra_inicial (abi : Abi) : Integra abi inicializarHash := by
  have h : ∀ j, inicializarHash.v.getD j [] = [] := by
    intro j
    unfold inicializarHash
    simp only [List.getD_eq_getElem?_getD, List.getElem?_replicate]
    split_ifs <;> rfl
  refine ⟨by simp [inicializarHash], ?_, ?_⟩
  · intro j k hk
    rw [h j] at hk
    simp [chaves] at hk
  · intro j
    rw [h j]
    simp [chaves]

theorem integra_inserir (abi : Abi) (ht : HashTable) (p s : Option Str)
    (hi : Integra abi ht) : Integra abi (inserirNaHash abi ht p s) := by
  cases p with
  | none => simpa [inserirNaHash] using hi
  | some p =>
    cases s with
    | none => simpa [inserirNaHash] using hi
    | some s =>
      by_cases hp : p = []
      · simpa [inserirNaHash, hp] using hi
      · obtain ⟨h1, h2, h3⟩ := hi
        refine ⟨bemFormada_inserir abi ht _ _ h1, ?_, ?_⟩
        · intro j k hk
          rw [inserirNaHash_eq abi ht s hp] at hk
          simp only [getD_set_lista] at hk
          split_ifs at hk with hc
          · rw [chaves_cadeiaNova] at hk
            split_ifs at hk with hm
            · rw [← hc.1]; exact h2 _ k hk
            · rcases List.mem_cons.mp hk with hk | hk
              · rw [hk]; exact ⟨hc.1, hp⟩
              · rw [← hc.1]; exact h2 _ k hk
          · exact h2 j k hk
        · intro j
          rw [inserirNaHash_eq abi ht s hp]
          simp only [getD_set_lista]
          split_ifs with hc
          · rw [chaves_cadeiaNova]
            split_ifs with hm
            · exact h3 _
            · exact List.nodup_cons.mpr ⟨hm, h3 _⟩
          · exact h3 j

theorem integra_alcancavel {abi : Abi} {ht : HashTable} (h : Alcancavel abi ht) :
    Integra abi ht := by
  induction h with
  | inicial => exact integra_inicial abi
  | inserir p s _ ih => exact integra_inserir abi _ p s ih

theorem soma_zero {α : Type} (f : α → Nat) (d : α) (l : List α)
    (h : ∀ j, f (l.getD j d) = 0) : (l.map f).sum = 0 := by
  induction l with
  | nil => rfl
  | cons x xs ih =>
    have h0 : f x = 0 := by simpa using h 0
    have hs : (xs.map f).sum = 0 := ih (fun j => by simpa using h (j + 1))
    simp [h0, hs]

theorem soma_um_balde {α : Type} (f : α → Nat) (d : α) (l : List α) (i : Nat)
    (hi : i < l.length) (h : ∀ j, j ≠ i → f (l.getD j d) = 0) :
    (l.map f).sum = f (l.getD i d) := by
  induction l generalizing i with
  | nil => simp at hi
  | cons x xs ih =>
    cases i with
    | zero =>
      have hs : (xs.map f).sum = 0 :=
        soma_zero f d xs (fun j => by simpa using h (j + 1) (by omega))
      simp [hs]
    | succ i =>
      have h0 : f x = 0 := by simpa using h 0 (by omega)
      have hs := ih i (by simpa using hi)
        (fun j hj => by simpa using h (j + 1) (by omega))
      simp [h0, hs]

theorem contagem_zero {l : List Str} {k : Str} (h : k ∉ l) :
    l.countP (fun c => c = k) = 0 := by
  rw [List.countP_eq_zero]
  intro a ha hak
  simp only [decide_eq_true_eq] at hak
  exact h (hak ▸ ha)

theorem contagem_um {l : List Str} {k : Str} (hn : l.Nodup) (h : k ∈ l) :
    l.countP (fun c => c = k) = 1 := by
  induction l with
  | nil => simp at h
  | cons x xs ih =>
    obtain ⟨hx, hxs⟩ := List.nodup_cons.mp hn
    by_cases hxk : x = k
    · subst hxk
      simp [List.countP_cons, contagem_zero hx]
    · have hk : k ∈ xs := by
        rcases List.mem_cons.mp h with h | h
        · exact absurd h.symm hxk
        · exact h
      simp [List.countP_cons, hxk, ih hxs hk]

theorem ocorrencias_balde {abi : Abi} {ht : HashTable} (hi : Integra abi ht) (k : Str) :
    ocorrencias ht k =
      (chaves (ht.v.getD (hashString abi k) [])).countP (fun c => c = k) := by
  obtain ⟨h1, h2, _⟩ := hi
  unfold ocorrencias
  apply soma_um_balde (fun cadeia => (chaves cadeia).countP (fun c => c = k)) []
    ht.v (hashString abi k)
  · rw [h1]; exact hashString_lt abi k
  · intro j hj
    apply contagem_zero
    intro hk
    exact hj (h2 j k hk).1.symm

theorem ocorrencias_encontrado {abi : Abi} {ht : HashTable} (hi : Integra abi ht)
    {k s : Str} (h : encontrarSuspeito abi ht (some k) = some s) : ocorrencias ht k = 1 := by
  rw [ocorrencias_balde hi k]
  have hm : k ∈ chaves (ht.v.getD (hashString abi k) []) := by
    rw [← buscar_isSome_iff]
    simp only [encontrarSuspeito] at h
    rw [h]
    rfl
  exact contagem_um (hi.2.2 _) hm

theorem encontrar_inicial (abi : Abi) (q : Option Str) :
    encontrarSuspeito abi inicializarHash q = none := by
  cases q with
  | none => rfl
  | some q =>
    unfold encontrarSuspeito inicializarHash
    simp only [List.getD_eq_getElem?_getD, List.getElem?_replicate]
    split_ifs <;> rfl

theorem ultimaEscrita_cons (c : Str × Str) (cs : List (Str × Str)) (q : Str) :
    ultimaEscrita (c :: cs) q =
      (ultimaEscrita cs q).or (if c.1 = q then some c.2 else none) := by
  unfold ultimaEscrita
  rw [List.reverse_cons, List.find?_append]
  cases List.find? (fun c => decide (c.1 = q)) cs.reverse with
  | some x => simp
  | none =>
    by_cases h : c.1 = q
    · simp [List.find?_cons, h]
    · simp [List.find?_cons, h]

theorem bemFormada_inserirVarias (abi : Abi) (cs : List (Str × Str)) (t : HashTable)
    (hbf : t.bemFormada) : (inserirVarias abi t cs).bemFormada := by
  induction cs generalizing t with
  | nil => exact hbf
  | cons c cs ih =>
    unfold inserirVarias
    rw [List.foldl_cons]
    exact ih _ (bemFormada_inserir abi t _ _ hbf)

theorem alcancavel_inserirVarias (abi : Abi) (cs : List (Str × Str)) (t : HashTable)
    (h : Alcancavel abi t) : Alcancavel abi (inserirVarias abi t cs) := by
  induction cs generalizing t with
  | nil => exact h
  | cons c cs ih =>
    unfold inserirVarias
    rw [List.foldl_cons]
    exact ih _ (Alcancavel.inserir _ _ h)

theorem encontrar_inserirVarias (abi : Abi) (cs : List (Str × Str)) (t : HashTable)
    (hbf : t.bemFormada) (hcs : ∀ c ∈ cs, c.1 ≠ []) (q : Str) :
    encontrarSuspeito abi (inserirVarias abi t cs) (some q) =
      (ultimaEscrita cs q).or (encontrarSuspeito abi t (some q)) := by
  induction cs generalizing t with
  | nil => simp [inserirVarias, ultimaEscrita]
  | cons c cs ih =>
    have hc : c.1 ≠ [] := hcs c (List.mem_cons_self _ _)
    have h1 := ih (inserirNaHash abi t (some c.1) (some c.2))
      (bemFormada_inserir abi t _ _ hbf) (fun x hx => hcs x (List.mem_cons_of_mem _ hx))
    have h2 : inserirVarias abi t (c :: cs) =
        inserirVarias abi (inserirNaHash abi t (some c.1) (some c.2)) cs := by
      unfold inserirVarias
      rw [List.foldl_cons]
    rw [h2, h1, encontrar_inserir abi t hbf c.2 q hc, ultimaEscrita_cons]
    cases ultimaEscrita cs q with
    | some x => simp
    | none =>
      by_cases h : q = c.1
      · simp [h]
      · have h' : ¬ c.1 = q := fun e => h e.symm
        simp [h, h']

theorem ultimaEscrita_ausente (cs : List (Str × Str)) (q : Str) (h : ∀ c ∈ cs, c.1 ≠ q) :
    ultimaEscrita cs q = none := by
  unfold ultimaEscrita
  simp only [Option.map_eq_none', List.find?_eq_none, List.mem_reverse, decide_eq_true_eq]
  exact h

theorem bemFormada_alcancavel {abi : Abi} {ht : HashTable} (h : Alcancavel abi ht) :
    ht.bemFormada := (integra_alcancavel h).1

theorem encontrar_varias_inicial (abi : Abi) (cs : List (Str × Str))
    (hcs : ∀ c ∈ cs, c.1 ≠ []) (q : Str) :
    encontrarSuspeito abi (inserirVarias abi inicializarHash cs) (some q) =
      ultimaEscrita cs q := by
  have h := encontrar_inserirVarias abi cs inicializarHash (integra_inicial abi).1 hcs q
  rw [encontrar_inicial, Option.or_none] at h
  exact h

/-! ## Lemmas on the tally -/

theorem verificar_eq_countP (abi : Abi) (t : NoPista) (ht : HashTable) (s : Str) :
    verificarSuspeitoFinal abi t ht s =
      (listarPistas t).countP (fun c => encontrarSuspeito abi ht (some c) = some s) := by
  induction t with
  | nulo => rfl
  | no k l r ihl ihr =>
    simp only [verificarSuspeitoFinal, listarPistas, List.countP_append, List.countP_cons,
      ihl, ihr]
    cases h : encontrarSuspeito abi ht (some k) with
    | none => simp
    | some x =>
      by_cases hx : x = s
      · simp [hx, strcmp_self]; omega
      · have hne : ¬ strcmp x s = 0 := fun h0 => hx (strcmp_eq_zero h0)
        simp [hx, hne]

theorem verificar_le_length (abi : Abi) (t : NoPista) (ht : HashTable) (s : Str) :
    verificarSuspeitoFinal abi t ht s ≤ (listarPistas t).length := by
  rw [verificar_eq_countP]
  exact List.countP_le_length _

theorem verificar_congr {abi abi' : Abi} {ht ht' : HashTable}
    (h : ∀ q, encontrarSuspeito abi ht (some q) = encontrarSuspeito abi' ht' (some q))
    (t : NoPista) (s : Str) :
    verificarSuspeitoFinal abi t ht s = verificarSuspeitoFinal abi' t ht' s := by
  rw [verificar_eq_countP, verificar_eq_countP]
  simp only [h]

theorem faseAcusacao_congr {abi abi' : Abi} {ht ht' : HashTable}
    (h : ∀ q, encontrarSuspeito abi ht (some q) = encontrarSuspeito abi' ht' (some q))
    (t : NoPista) (e : Option Str) :
    faseAcusacao abi t ht e = faseAcusacao abi' t ht' e := by
  cases e with
  | none => rfl
  | some e => simp only [faseAcusacao, verificar_congr h]

/-! ## Lemmas on the session -/

theorem visitar_congr {abi abi' : Abi} {ht ht' : HashTable}
    (h : ∀ q, encontrarSuspeito abi ht (some q) = encontrarSuspeito abi' ht' (some q))
    (st : Sessao) : visitar abi ht st = visitar abi' ht' st := by
  simp only [visitar, h]

theorem laco_congr {abi abi' : Abi} {ht ht' : HashTable}
    (h : ∀ q, encontrarSuspeito abi ht (some q) = encontrarSuspeito abi' ht' (some q))
    (st : Sessao) (cmds : List Str) : laco abi ht st cmds = laco abi' ht' st cmds := by
  induction cmds generalizing st with
  | nil => simp only [laco, visitar_congr h]
  | cons c cs ih =>
    simp only [laco, visitar_congr h]
    cases comando (visitar abi' ht' st) c with
    | continua st' => exact ih st'
    | saiu st' => rfl
    | indefinido => rfl

theorem explorarSalas_congr {abi abi' : Abi} {ht ht' : HashTable}
    (h : ∀ q, encontrarSuspeito abi ht (some q) = encontrarSuspeito abi' ht' (some q))
    (raiz : SalaPtr) (bst : NoPista) (cmds : List Str) :
    explorarSalas abi raiz bst ht cmds = explorarSalas abi' raiz bst ht' cmds := by
  cases raiz with
  | nulo => rfl
  | aponta r => simp only [explorarSalas, laco_congr h]

theorem montarMapa_tabela (abi : Abi) :
    (montarMapa abi inicializarHash).2 =
      inserirVarias abi inicializarHash
        [(ascii "pegadas molhadas", ascii "Sr. Verde"),
         (ascii "fio de cabelo ruivo", ascii "Sra. Rosa"),
         (pistaFumaca, ascii "Sr. Azul"),
         (ascii "copo com pegadas digitais", ascii "Sra. Rosa"),
         (ascii "bilhete rasgado", ascii "Sr. Verde")] := by
  simp only [montarMapa, inserirVarias, List.foldl_cons, List.foldl_nil]

theorem montarMapa_encontrar (abi abi' : Abi) (q : Str) :
    encontrarSuspeito abi (montarMapa abi inicializarHash).2 (some q) =
      encontrarSuspeito abi' (montarMapa abi' inicializarHash).2 (some q) := by
  rw [montarMapa_tabela, montarMapa_tabela,
    encontrar_varias_inicial abi _ (by decide), encontrar_varias_inicial abi' _ (by decide)]

theorem sala_bemFormada_pista {s : Sala} (h : s.bemFormada = true) :
    s.pista.length < MAX_PISTA := by
  cases s with
  | mk n p e d =>
    simp only [Sala.bemFormada, Bool.and_eq_true, decide_eq_true_eq] at h
    exact h.1.1.2

theorem sala_bemFormada_esq {s f : Sala} (h : s.bemFormada = true)
    (he : s.esq = .aponta f) : f.bemFormada = true := by
  cases s with
  | mk n p e d =>
    simp only [Sala.bemFormada, Bool.and_eq_true, decide_eq_true_eq] at h
    simp only [Sala.esq] at he
    have h2 := h.1.2
    rw [he] at h2
    simpa [SalaPtr.bemFormada] using h2

theorem sala_bemFormada_dir {s f : Sala} (h : s.bemFormada = true)
    (he : s.dir = .aponta f) : f.bemFormada = true := by
  cases s with
  | mk n p e d =>
    simp only [Sala.bemFormada, Bool.and_eq_true, decide_eq_true_eq] at h
    simp only [Sala.dir] at he
    have h2 := h.2
    rw [he] at h2
    simpa [SalaPtr.bemFormada] using h2

theorem buscaPista_mem {p : Str} {t : NoPista} (h : buscaPista p t = true) :
    p ∈ listarPistas t := by
  induction t with
  | nulo => simp [buscaPista] at h
  | no k l r ihl ihr =>
    simp only [buscaPista] at h
    simp only [listarPistas, List.mem_append, List.mem_cons]
    split_ifs at h with h0 h1
    · exact Or.inr (Or.inl (strcmp_eq_zero h0))
    · exact Or.inl (ihl h)
    · exact Or.inr (Or.inr (ihr h))

theorem mem_inserir_self (t : NoPista) {p : Str} (hne : p ≠ [])
    (hp : p.length < MAX_PISTA) : p ∈ listarPistas (inserirPista t (some p)) := by
  induction t with
  | nulo => simp [inserirPista, hne, listarPistas, copiaLimitada_curta hp]
  | no k l r ihl ihr =>
    unfold inserirPista
    simp only [hne, if_false]
    split_ifs with h1 h2
    · simp only [listarPistas, List.mem_append, List.mem_cons]
      exact Or.inl ihl
    · simp only [listarPistas, List.mem_append, List.mem_cons]
      exact Or.inr (Or.inr ihr)
    · simp only [listarPistas, List.mem_append, List.mem_cons]
      have h0 : strcmp p k = 0 := by omega
      exact Or.inr (Or.inl (strcmp_eq_zero h0))

theorem visitar_atual (abi : Abi) (ht : HashTable) (st : Sessao) :
    (visitar abi ht st).atual = st.atual := by
  unfold visitar
  simp only [Sessao.registrar]
  split_ifs <;> first | rfl | (split <;> rfl)

theorem visitar_stack (abi : Abi) (ht : HashTable) (st : Sessao) :
    (visitar abi ht st).stack = st.stack := by
  unfold visitar
  simp only [Sessao.registrar]
  split_ifs <;> first | rfl | (split <;> rfl)

theorem visitar_bst (abi : Abi) (ht : HashTable) (st : Sessao) :
    (visitar abi ht st).bst =
      if st.atual.pista ≠ [] ∧ buscaPista st.atual.pista st.bst = false then
        inserirPista st.bst (some st.atual.pista)
      else st.bst := by
  unfold visitar
  simp only [Sessao.registrar]
  by_cases h1 : st.atual.pista = []
  · simp [h1]
  · by_cases h2 : buscaPista st.atual.pista st.bst = false
    · simp only [h1, h2, ne_eq, not_false_eq_true, if_true, and_self]
      split <;> rfl
    · simp only [h1, h2, ne_eq, not_false_eq_true, if_true, if_false, and_false]
      split <;> rfl

theorem visitar_bemFormada (abi : Abi) (ht : HashTable) {st : Sessao}
    (h : st.bemFormada) : (visitar abi ht st).bemFormada := by
  unfold Sessao.bemFormada at h ⊢
  rw [visitar_atual, visitar_stack]
  exact h

theorem comando_continua {st st' : Sessao} {cmd : Str} (h : comando st cmd = .continua st')
    (hbf : st.bemFormada) : st'.bst = st.bst ∧ st'.bemFormada := by
  obtain ⟨ha, hs⟩ := hbf
  by_cases h1 : cmd.headD 0 = 115
  · simp only [comando, Nat.reduceEqDiff, h1, if_true, reduceCtorEq] at h
  by_cases h2 : cmd.headD 0 = 101
  · cases he : st.atual.esq with
    | nulo =>
      simp only [comando, Nat.reduceEqDiff, h1, h2, he, if_true, if_false, Sessao.registrar,
        Passo.continua.injEq] at h
      subst h
      exact ⟨rfl, ha, hs⟩
    | aponta filho =>
      by_cases hc : st.stack.length < TAM_PILHA
      · simp only [comando, Nat.reduceEqDiff, h1, h2, he, hc, if_true, if_false, Passo.continua.injEq] at h
        subst h
        refine ⟨rfl, sala_bemFormada_esq ha he, ?_⟩
        intro r hr
        rcases List.mem_cons.mp hr with hr | hr
        · rw [hr]; exact ha
        · exact hs r hr
      · simp only [comando, Nat.reduceEqDiff, h1, h2, he, hc, if_true, if_false, reduceCtorEq] at h
  by_cases h3 : cmd.headD 0 = 100
  · cases he : st.atual.dir with
    | nulo =>
      simp only [comando, Nat.reduceEqDiff, h1, h2, h3, he, if_true, if_false, Sessao.registrar,
        Passo.continua.injEq] at h
      subst h
      exact ⟨rfl, ha, hs⟩
    | aponta filho =>
      by_cases hc : st.stack.length < TAM_PILHA
      · simp only [comando, Nat.reduceEqDiff, h1, h2, h3, he, hc, if_true, if_false,
          Passo.continua.injEq] at h
        subst h
        refine ⟨rfl, sala_bemFormada_dir ha he, ?_⟩
        intro r hr
        rcases List.mem_cons.mp hr with hr | hr
        · rw [hr]; exact ha
        · exact hs r hr
      · simp only [comando, Nat.reduceEqDiff, h1, h2, h3, he, hc, if_true, if_false, reduceCtorEq] at h
  by_cases h4 : cmd.headD 0 = 98
  · cases hst : st.stack with
    | nil =>
      simp only [comando, Nat.reduceEqDiff, h1, h2, h3, h4, hst, if_true, if_false, Sessao.registrar,
        Passo.continua.injEq] at h
      subst h
      exact ⟨rfl, ha, by simp⟩
    | cons topo resto =>
      simp only [comando, Nat.reduceEqDiff, h1, h2, h3, h4, hst, if_true, if_false,
        Passo.continua.injEq] at h
      subst h
      rw [hst] at hs
      exact ⟨rfl, hs topo (List.mem_cons_self _ _),
        fun r hr => hs r (List.mem_cons_of_mem _ hr)⟩
  · simp only [comando, Nat.reduceEqDiff, h1, h2, h3, h4, if_false, Sessao.registrar,
      Passo.continua.injEq] at h
    subst h
    exact ⟨rfl, ha, hs⟩

theorem visitar_pistas (abi : Abi) (ht : HashTable) {st : Sessao}
    (hbf : st.atual.bemFormada = true) (hc : Crescente (listarPistas st.bst)) :
    Crescente (listarPistas (visitar abi ht st).bst) ∧
      ∀ c, c ∈ listarPistas (visitar abi ht st).bst ↔
        c ∈ listarPistas st.bst ∨ (c ≠ [] ∧ st.atual.pista = c) := by
  have hlen := sala_bemFormada_pista hbf
  rw [visitar_bst]
  by_cases h1 : st.atual.pista = []
  · simp only [h1, ne_eq, not_true_eq_false, false_and, if_false]
    refine ⟨hc, fun c => ⟨Or.inl, ?_⟩⟩
    rintro (h | ⟨h2, h3⟩)
    · exact h
    · exact absurd h3.symm h2
  · by_cases h2 : buscaPista st.atual.pista st.bst = false
    · simp only [h1, h2, ne_eq, not_false_eq_true, and_self, if_true]
      refine ⟨crescente_inserir hlen hc, fun c => ⟨?_, ?_⟩⟩
      · intro h
        rcases mem_listar_inserir h with h | h
        · rw [copiaLimitada_curta hlen] at h
          exact Or.inr ⟨by rw [h]; exact h1, h.symm⟩
        · exact Or.inl h
      · rintro (h | ⟨_, h3⟩)
        · exact listar_subset_inserir h
        · rw [← h3]; exact mem_inserir_self _ h1 hlen
    · have h2' : buscaPista st.atual.pista st.bst = true := by simpa using h2
      rw [if_neg (by simp [h2'])]
      refine ⟨hc, fun c => ⟨Or.inl, ?_⟩⟩
      rintro (h | ⟨_, h3⟩)
      · exact h
      · rw [← h3]
        exact buscaPista_mem h2'

theorem trajeto_pistas (abi : Abi) (ht : HashTable) (cmds : List Str) :
    ∀ (st0 : Sessao) (antes : List Sessao) (st : Sessao) (depois : List Sessao),
      st0.bemFormada → Crescente (listarPistas st0.bst) →
      trajeto abi ht st0 cmds = antes ++ st :: depois →
      Crescente (listarPistas st.bst) ∧
        ∀ c, c ∈ listarPistas st.bst ↔
          c ∈ listarPistas st0.bst ∨ (c ≠ [] ∧ ∃ s ∈ antes ++ [st], s.atual.pista = c) := by
  induction cmds with
  | nil =>
    intro st0 antes st depois hbf hc h
    obtain ⟨hv1, hv2⟩ := visitar_pistas abi ht hbf.1 hc
    cases antes with
    | nil =>
      simp only [trajeto, List.nil_append, List.cons.injEq] at h
      rw [← h.1]
      refine ⟨hv1, fun c => ?_⟩
      rw [hv2 c]
      simp [visitar_atual]
    | cons a as =>
      simp only [trajeto, List.cons_append, List.cons.injEq] at h
      exact absurd h.2 (by simp)
  | cons cmd cs ih =>
    intro st0 antes st depois hbf hc h
    obtain ⟨hv1, hv2⟩ := visitar_pistas abi ht hbf.1 hc
    cases antes with
    | nil =>
      simp only [trajeto, List.nil_append, List.cons.injEq] at h
      rw [← h.1]
      refine ⟨hv1, fun c => ?_⟩
      rw [hv2 c]
      simp [visitar_atual]
    | cons a as =>
      simp only [trajeto, List.cons_append, List.cons.injEq] at h
      obtain ⟨ha, hrest⟩ := h
      cases hcmd : comando (visitar abi ht st0) cmd with
      | continua st' =>
        rw [hcmd] at hrest
        simp only at hrest
        obtain ⟨hb, hbf'⟩ := comando_continua hcmd (visitar_bemFormada abi ht hbf)
        obtain ⟨hi1, hi2⟩ := ih st' as st depois hbf' (by rw [hb]; exact hv1) hrest
        refine ⟨hi1, fun c => ?_⟩
        rw [hi2 c, hb, hv2 c, ← ha]
        simp only [List.cons_append, List.mem_cons, exists_eq_or_imp, visitar_atual]
        tauto
      | saiu st' =>
        rw [hcmd] at hrest
        exact absurd hrest (by simp)
      | indefinido =>
        rw [hcmd] at hrest
        exact absurd hrest (by simp)

/-! ## C1 and C2: order and idempotence of the clue tree -/

set_option maxRecDepth 100000 in
/-- C1 at the input where `inserirPista` breaks it: inserting a 127-byte clue and then
the 128-byte clue that extends it by one byte.  The second clue compares greater than
the stored key, is sent to the right and is stored cut to its first 127 bytes, the very
key of the root.  The in-order listing is that key twice, so it is neither strictly
ascending nor free of duplicates, against the comment of the function that it inserts
no duplicate. -/
theorem c1_contraexemplo :
    listarPistas (inserirTodas .nulo
        [List.replicate 127 97, List.replicate 127 97 ++ [98]]) =
      [List.replicate 127 97, List.replicate 127 97] ∧
    ¬ (Crescente (listarPistas (inserirTodas .nulo
          [List.replicate 127 97, List.replicate 127 97 ++ [98]])) ∧
       (listarPistas (inserirTodas .nulo
          [List.replicate 127 97, List.replicate 127 97 ++ [98]])).Nodup) := by
  decide

/-- The order invariant on the clues that fit the key buffer, where comparing before
cutting makes no difference: for every sequence of clues of fewer than `MAX_PISTA` bytes
each, the in-order listing of the tree built from the empty tree by `inserirPista` is
strictly ascending in `strcmp` order and has no duplicate. -/
theorem c1_ordem_das_pistas (ps : List Str) (hps : ∀ p ∈ ps, p.length < MAX_PISTA) :
    Crescente (listarPistas (inserirTodas .nulo ps)) ∧
      (listarPistas (inserirTodas .nulo ps)).Nodup := by
  have h : Crescente (listarPistas (inserirTodas .nulo ps)) :=
    crescente_inserirTodas ps .nulo hps (by simp [listarPistas, Crescente])
  exact ⟨h, crescente_nodup h⟩

/-- The order invariant on three short clues inserted out of order, one of them
twice. -/
theorem c1_ordem_das_pistas_witness :
    Crescente (listarPistas (inserirTodas .nulo [[99], [97, 98], [99], [97]])) ∧
      (listarPistas (inserirTodas .nulo [[99], [97, 98], [99], [97]])).Nodup :=
  c1_ordem_das_pistas [[99], [97, 98], [99], [97]] (by decide)

set_option maxRecDepth 100000 in
/-- C2 at the input where `inserirPista` breaks it: a clue of 128 bytes inserted twice
into the empty tree.  The first insertion stores its first 127 bytes; the second compares
the whole clue with that key, finds it greater instead of equal, and stores the same 127
bytes again, so the listing has two keys where one insertion gives one.  The ledger,
whose `inserirNaHash` copies the key whole, keeps a single entry for the same clue
written twice. -/
theorem c2_contraexemplo :
    listarPistas (inserirPista .nulo (some (List.replicate 128 97))) =
      [List.replicate 127 97] ∧
    listarPistas (inserirPista (inserirPista .nulo (some (List.replicate 128 97)))
        (some (List.replicate 128 97))) =
      [List.replicate 127 97, List.replicate 127 97] ∧
    listarPistas (inserirPista (inserirPista .nulo (some (List.replicate 128 97)))
        (some (List.replicate 128 97))) ≠
      listarPistas (inserirPista .nulo (some (List.replicate 128 97))) ∧
    ocorrencias
        (inserirNaHash Abi.lp64
          (inserirNaHash Abi.lp64 inicializarHash (some (List.replicate 128 97))
            (some (ascii "A")))
          (some (List.replicate 128 97)) (some (ascii "B")))
        (List.replicate 128 97) = 1 := by
  decide

/-- Idempotence on the clues that fit the key buffer: for every tree (built by
insertions or not) and every clue of fewer than `MAX_PISTA` bytes, inserting the clue a
second time leaves the tree, and so its in-order listing, as it was after the first
insertion. -/
theorem c2_insercao_idempotente (t : NoPista) (k : Str) (hk : k.length < MAX_PISTA) :
    inserirPista (inserirPista t (some k)) (some k) = inserirPista t (some k) ∧
      listarPistas (inserirPista (inserirPista t (some k)) (some k)) =
        listarPistas (inserirPista t (some k)) := by
  have h := inserir_inserir t hk
  exact ⟨h, by rw [h]⟩

/-- Idempotence on a tree of two short clues and a third short clue. -/
theorem c2_insercao_idempotente_witness :
    inserirPista (inserirPista (inserirTodas .nulo [[99], [97]]) (some [98])) (some [98]) =
        inserirPista (inserirTodas .nulo [[99], [97]]) (some [98]) ∧
      listarPistas (inserirPista (inserirPista (inserirTodas .nulo [[99], [97]]) (some [98]))
          (some [98])) =
        listarPistas (inserirPista (inserirTodas .nulo [[99], [97]]) (some [98])) :=
  c2_insercao_idempotente (inserirTodas .nulo [[99], [97]]) [98] (by decide)

/-! ## C3 and C4: the ledger as an association map -/

/-- C3: on every table reachable from the empty table, for every non-empty key `k` and
all suspects `A` and `B`, after `inserirNaHash(k, A)` and then `inserirNaHash(k, B)` the
lookup of `k` returns `B` and the table, all chains together, holds exactly one entry
with key `k`. -/
theorem c3_sobrescrita (abi : Abi) (t : HashTable) (ht : Alcancavel abi t)
    (k A B : Str) (hk : k ≠ []) :
    encontrarSuspeito abi
        (inserirNaHash abi (inserirNaHash abi t (some k) (some A)) (some k) (some B))
        (some k) = some B ∧
      ocorrencias
        (inserirNaHash abi (inserirNaHash abi t (some k) (some A)) (some k) (some B)) k = 1 := by
  have h1 : Alcancavel abi (inserirNaHash abi t (some k) (some A)) :=
    Alcancavel.inserir _ _ ht
  have h2 : Alcancavel abi
      (inserirNaHash abi (inserirNaHash abi t (some k) (some A)) (some k) (some B)) :=
    Alcancavel.inserir _ _ h1
  have hl := encontrar_inserir abi _ (bemFormada_alcancavel h1) B k hk
  rw [if_pos rfl] at hl
  exact ⟨hl, ocorrencias_encontrado (integra_alcancavel h2) hl⟩

/-- C3 on the empty table with k = "k", A = "A", B = "B". -/
theorem c3_sobrescrita_witness :
    encontrarSuspeito Abi.lp64
        (inserirNaHash Abi.lp64
          (inserirNaHash Abi.lp64 inicializarHash (some (ascii "k")) (some (ascii "A")))
          (some (ascii "k")) (some (ascii "B")))
        (some (ascii "k")) = some (ascii "B") ∧
      ocorrencias
        (inserirNaHash Abi.lp64
          (inserirNaHash Abi.lp64 inicializarHash (some (ascii "k")) (some (ascii "A")))
          (some (ascii "k")) (some (ascii "B"))) (ascii "k") = 1 :=
  c3_sobrescrita Abi.lp64 inicializarHash Alcancavel.inicial (ascii "k") (ascii "A")
    (ascii "B") (by decide)

/-- C4: the ledger is a last-write-wins association map.  After any sequence of
insertions with non-empty keys into the empty table, the lookup of a key `q` returns the
value of the last pair whose key is `q` (`ultimaEscrita`), and nothing when no pair has
key `q`.  And on every table of `HASH_SIZE` buckets, one insertion with a non-empty key
`k` makes the lookup of `k` return the new value and leaves the lookup of every other key
as it was, whatever bucket that key hashes to. -/
theorem c4_ultima_escrita_vence (abi : Abi) :
    (∀ (chamadas : List (Str × Str)) (q : Str), (∀ c ∈ chamadas, c.1 ≠ []) →
      encontrarSuspeito abi (inserirVarias abi inicializarHash chamadas) (some q) =
          ultimaEscrita chamadas q ∧
        ((∀ c ∈ chamadas, c.1 ≠ q) →
          encontrarSuspeito abi (inserirVarias abi inicializarHash chamadas) (some q) = none)) ∧
    (∀ (t : HashTable) (k v q : Str), t.bemFormada → k ≠ [] →
      encontrarSuspeito abi (inserirNaHash abi t (some k) (some v)) (some k) = some v ∧
        (q ≠ k →
          encontrarSuspeito abi (inserirNaHash abi t (some k) (some v)) (some q) =
            encontrarSuspeito abi t (some q))) := by
  refine ⟨?_, ?_⟩
  · intro chamadas q hne
    have h := encontrar_inserirVarias abi chamadas inicializarHash
      (integra_inicial abi).1 hne q
    rw [encontrar_inicial, Option.or_none] at h
    exact ⟨h, fun hq => by rw [h, ultimaEscrita_ausente chamadas q hq]⟩
  · intro t k v q hbf hk
    refine ⟨?_, fun hq => ?_⟩
    · rw [encontrar_inserir abi t hbf v k hk, if_pos rfl]
    · rw [encontrar_inserir abi t hbf v q hk, if_neg hq]

/-- C4 on three writes, two of them to the same key, and on the keys "a" and "r", which
fall in the same bucket on the LP64 target. -/
theorem c4_ultima_escrita_vence_witness :
    (encontrarSuspeito Abi.lp64
        (inserirVarias Abi.lp64 inicializarHash
          [(ascii "a", ascii "X"), (ascii "r", ascii "Y"), (ascii "a", ascii "Z")])
        (some (ascii "a")) =
      ultimaEscrita [(ascii "a", ascii "X"), (ascii "r", ascii "Y"), (ascii "a", ascii "Z")]
        (ascii "a")) ∧
    (hashString Abi.lp64 (ascii "a") = hashString Abi.lp64 (ascii "r") ∧
      encontrarSuspeito Abi.lp64
          (inserirNaHash Abi.lp64
            (inserirNaHash Abi.lp64 inicializarHash (some (ascii "r")) (some (ascii "Y")))
            (some (ascii "a")) (some (ascii "Z")))
          (some (ascii "r")) =
        encontrarSuspeito Abi.lp64
          (inserirNaHash Abi.lp64 inicializarHash (some (ascii "r")) (some (ascii "Y")))
          (some (ascii "r"))) :=
  ⟨((c4_ultima_escrita_vence Abi.lp64).1
      [(ascii "a", ascii "X"), (ascii "r", ascii "Y"), (ascii "a", ascii "Z")] (ascii "a")
      (by decide)).1,
    by decide,
    ((c4_ultima_escrita_vence Abi.lp64).2
      (inserirNaHash Abi.lp64 inicializarHash (some (ascii "r")) (some (ascii "Y")))
      (ascii "a") (ascii "Z") (ascii "r") (by decide) (by decide)).2 (by decide)⟩

/-! ## C5 and C6: the tally and the threshold -/

/-- C5: `verificarSuspeitoFinal(t, h, s)` is the number of keys `c` of the in-order
listing of `t` whose lookup in `h` is present and equal, byte for byte, to `s`; two trees
whose listings are permutations of each other give the same number; and for the clues
c1, c2, c3 with the ledger c1->X, c2->X, c3->Y the number is 2 for X and 1 for Y. -/
theorem c5_contagem (abi : Abi) :
    (∀ (t : NoPista) (h : HashTable) (s : Str),
      verificarSuspeitoFinal abi t h s =
        (listarPistas t).countP (fun c => encontrarSuspeito abi h (some c) = some s)) ∧
    (∀ (t1 t2 : NoPista) (h : HashTable) (s : Str),
      (listarPistas t1).Perm (listarPistas t2) →
        verificarSuspeitoFinal abi t1 h s = verificarSuspeitoFinal abi t2 h s) ∧
    verificarSuspeitoFinal abi (inserirTodas .nulo [ascii "c1", ascii "c2", ascii "c3"])
        (inserirVarias abi inicializarHash
          [(ascii "c1", ascii "X"), (ascii "c2", ascii "X"), (ascii "c3", ascii "Y")])
        (ascii "X") = 2 ∧
    verificarSuspeitoFinal abi (inserirTodas .nulo [ascii "c1", ascii "c2", ascii "c3"])
        (inserirVarias abi inicializarHash
          [(ascii "c1", ascii "X"), (ascii "c2", ascii "X"), (ascii "c3", ascii "Y")])
        (ascii "Y") = 1 := by
  have hl : listarPistas (inserirTodas .nulo [ascii "c1", ascii "c2", ascii "c3"]) =
      [ascii "c1", ascii "c2", ascii "c3"] := by decide
  have hne : ∀ c ∈ [(ascii "c1", ascii "X"), (ascii "c2", ascii "X"), (ascii "c3", ascii "Y")],
      c.1 ≠ [] := by decide
  refine ⟨verificar_eq_countP abi, ?_, ?_, ?_⟩
  · intro t1 t2 h s hp
    rw [verificar_eq_countP, verificar_eq_countP]
    exact hp.countP_eq _
  · rw [verificar_eq_countP, hl]
    simp only [encontrar_varias_inicial abi _ hne]
    decide
  · rw [verificar_eq_countP, hl]
    simp only [encontrar_varias_inicial abi _ hne]
    decide

/-- C5 on two trees of different shape with the same three clues. -/
theorem c5_contagem_witness :
    verificarSuspeitoFinal Abi.lp64
        (inserirTodas .nulo [ascii "c1", ascii "c2", ascii "c3"])
        (inserirVarias Abi.lp64 inicializarHash
          [(ascii "c1", ascii "X"), (ascii "c2", ascii "X"), (ascii "c3", ascii "Y")])
        (ascii "X") =
      verificarSuspeitoFinal Abi.lp64
        (inserirTodas .nulo [ascii "c2", ascii "c3", ascii "c1"])
        (inserirVarias Abi.lp64 inicializarHash
          [(ascii "c1", ascii "X"), (ascii "c2", ascii "X"), (ascii "c3", ascii "Y")])
        (ascii "X") :=
  (c5_contagem Abi.lp64).2.1
    (inserirTodas .nulo [ascii "c1", ascii "c2", ascii "c3"])
    (inserirTodas .nulo [ascii "c2", ascii "c3", ascii "c1"]) _ _ (by decide)

/-- C6: the accusation is reported as validated exactly when the tally of
`verificarSuspeitoFinal` is at least 2 and as insufficient otherwise; a tally of 2 is
validated, a tally of 1 is not, and with fewer than two collected clues the accusation
is never validated. -/
theorem c6_limiar (abi : Abi) (bst : NoPista) (ht : HashTable) (escolha : Str) :
    (faseAcusacao abi bst ht (some escolha) =
        .validada escolha (verificarSuspeitoFinal abi bst ht escolha) ↔
      2 ≤ verificarSuspeitoFinal abi bst ht escolha) ∧
    (faseAcusacao abi bst ht (some escolha) =
        .insuficiente escolha (verificarSuspeitoFinal abi bst ht escolha) ↔
      verificarSuspeitoFinal abi bst ht escolha < 2) ∧
    (verificarSuspeitoFinal abi bst ht escolha = 2 →
      faseAcusacao abi bst ht (some escolha) = .validada escolha 2) ∧
    (verificarSuspeitoFinal abi bst ht escolha = 1 →
      faseAcusacao abi bst ht (some escolha) = .insuficiente escolha 1) ∧
    ((listarPistas bst).length < 2 →
      faseAcusacao abi bst ht (some escolha) =
        .insuficiente escolha (verificarSuspeitoFinal abi bst ht escolha)) := by
  have hle := verificar_le_length abi bst ht escolha
  unfold faseAcusacao
  simp only []
  refine ⟨?_, ?_, ?_, ?_, ?_⟩
  · split_ifs with h
    · simp only [true_iff]; omega
    · simp only [false_iff, reduceCtorEq]; omega
  · split_ifs with h
    · simp only [false_iff, reduceCtorEq]; omega
    · simp only [true_iff]; omega
  · intro h2
    rw [h2]; rfl
  · intro h1
    rw [h1]; rfl
  · intro hlen
    rw [if_neg (by omega)]

/-- C6 on the ledger c1->X, c2->X, c3->Y with the single clue c1 collected: the
accusation of X is insufficient. -/
theorem c6_limiar_witness :
    faseAcusacao Abi.lp64 (inserirTodas .nulo [ascii "c1"])
        (inserirVarias Abi.lp64 inicializarHash
          [(ascii "c1", ascii "X"), (ascii "c2", ascii "X"), (ascii "c3", ascii "Y")])
        (some (ascii "X")) =
      .insuficiente (ascii "X")
        (verificarSuspeitoFinal Abi.lp64 (inserirTodas .nulo [ascii "c1"])
          (inserirVarias Abi.lp64 inicializarHash
            [(ascii "c1", ascii "X"), (ascii "c2", ascii "X"), (ascii "c3", ascii "Y")])
          (ascii "X")) :=
  (c6_limiar Abi.lp64 (inserirTodas .nulo [ascii "c1"])
    (inserirVarias Abi.lp64 inicializarHash
      [(ascii "c1", ascii "X"), (ascii "c2", ascii "X"), (ascii "c3", ascii "Y")])
    (ascii "X")).2.2.2.2 (by decide)

/-! ## C7: the reference scenario -/

set_option maxRecDepth 100000 in
/-- C7: on the map and ledger of `montarMapa`, from Hall with no clue collected, the
commands e, e, b, d, b, b, d, d, s end the exploration with exactly the five clues
collected, listed in ascending order, and `verificarSuspeitoFinal` then gives 2 for
"Sra. Rosa" (validated), 2 for "Sr. Verde" (validated) and 1 for "Sr. Azul"
(insufficient). -/
theorem c7_cenario (abi : Abi) :
    ∃ bst saida,
      explorarSalas abi (montarMapa abi inicializarHash).1 .nulo
          (montarMapa abi inicializarHash).2
          [ascii "e", ascii "e", ascii "b", ascii "d", ascii "b", ascii "b", ascii "d",
           ascii "d", ascii "s"] = some (bst, saida) ∧
      listarPistas bst =
        [ascii "bilhete rasgado", ascii "copo com pegadas digitais",
         ascii "fio de cabelo ruivo", pistaFumaca, ascii "pegadas molhadas"] ∧
      verificarSuspeitoFinal abi bst (montarMapa abi inicializarHash).2 (ascii "Sra. Rosa") = 2 ∧
      faseAcusacao abi bst (montarMapa abi inicializarHash).2 (some (ascii "Sra. Rosa")) =
        .validada (ascii "Sra. Rosa") 2 ∧
      verificarSuspeitoFinal abi bst (montarMapa abi inicializarHash).2 (ascii "Sr. Verde") = 2 ∧
      faseAcusacao abi bst (montarMapa abi inicializarHash).2 (some (ascii "Sr. Verde")) =
        .validada (ascii "Sr. Verde") 2 ∧
      verificarSuspeitoFinal abi bst (montarMapa abi inicializarHash).2 (ascii "Sr. Azul") = 1 ∧
      faseAcusacao abi bst (montarMapa abi inicializarHash).2 (some (ascii "Sr. Azul")) =
        .insuficiente (ascii "Sr. Azul") 1 := by
  have hq := montarMapa_encontrar abi Abi.lp64
  have hmapa : (montarMapa abi inicializarHash).1 = (montarMapa Abi.lp64 inicializarHash).1 :=
    rfl
  have hrun : ∃ r, explorarSalas Abi.lp64 (montarMapa Abi.lp64 inicializarHash).1 .nulo
      (montarMapa Abi.lp64 inicializarHash).2
      [ascii "e", ascii "e", ascii "b", ascii "d", ascii "b", ascii "b", ascii "d",
       ascii "d", ascii "s"] = some r ∧
      r.1 = inserirTodas .nulo [ascii "pegadas molhadas", ascii "fio de cabelo ruivo",
        pistaFumaca, ascii "copo com pegadas digitais", ascii "bilhete rasgado"] := by
    rw [← Option.map_eq_some']
    decide
  obtain ⟨⟨bst, saida⟩, hr, hb⟩ := hrun
  simp only at hb
  refine ⟨bst, saida, ?_, ?_⟩
  · rw [explorarSalas_congr hq, hmapa]
    exact hr
  · simp only [verificar_congr hq, faseAcusacao_congr hq]
    subst hb
    decide

/-! ## C8, C9 and C10: navigation and collection -/

set_option maxRecDepth 100000 in
/-- C8, as stated, fails: in a leaf room with its parent on the stack, the command left
changes nothing and the command back then moves to the parent and empties the stack;
and with 128 rooms on the stack the command left writes outside the stack array. -/
theorem c8_contraexemplo :
    (∃ st1 st2,
      comando ⟨salaFolha, [salaPai], .nulo, []⟩ (ascii "e") = .continua st1 ∧
      comando (visitar Abi.lp64 inicializarHash st1) (ascii "b") = .continua st2 ∧
      st2.atual ≠ salaFolha ∧ st2.stack.length ≠ [salaPai].length) ∧
    comando ⟨salaPai, List.replicate 128 salaPai, .nulo, []⟩ (ascii "e") = .indefinido := by
  refine ⟨⟨_, _, rfl, rfl, ?_, ?_⟩, ?_⟩ <;> decide

/-- C8, amended: in every session state whose current room has a left child and whose
path stack holds fewer than `TAM_PILHA` (128) rooms, the command left moves to the left
child and, after that room has been shown, the command back returns to the original
room with the path stack as it was before the two commands (in particular at the same
depth). -/
theorem c8_ida_e_volta (abi : Abi) (ht : HashTable) (st : Sessao) (filho : Sala)
    (r1 r2 : Str) (hesq : st.atual.esq = .aponta filho)
    (hcap : st.stack.length < TAM_PILHA) :
    ∃ st1 st2,
      comando st (101 :: r1) = .continua st1 ∧ st1.atual = filho ∧
      comando (visitar abi ht st1) (98 :: r2) = .continua st2 ∧
      st2.atual = st.atual ∧ st2.stack = st.stack ∧
      st2.stack.length = st.stack.length := by
  have h1 : comando st (101 :: r1) =
      .continua ⟨filho, st.atual :: st.stack, st.bst,
        st.saida ++ [.indoEsquerda filho.nome]⟩ := by
    simp only [comando, List.headD_cons, Nat.reduceEqDiff, if_false, if_true, hesq, hcap]
  have hs : (visitar abi ht ⟨filho, st.atual :: st.stack, st.bst,
      st.saida ++ [.indoEsquerda filho.nome]⟩).stack = st.atual :: st.stack := by
    rw [visitar_stack]
  refine ⟨_, ⟨st.atual, st.stack,
    (visitar abi ht ⟨filho, st.atual :: st.stack, st.bst,
      st.saida ++ [.indoEsquerda filho.nome]⟩).bst,
    (visitar abi ht ⟨filho, st.atual :: st.stack, st.bst,
      st.saida ++ [.indoEsquerda filho.nome]⟩).saida ++ [.voltando st.atual.nome]⟩,
    h1, rfl, ?_, rfl, rfl, rfl⟩
  simp only [comando, List.headD_cons, Nat.reduceEqDiff, if_false, if_true, hs]

/-- C8, amended, from `salaPai` at the root: left enters `salaFolha`, back returns. -/
theorem c8_ida_e_volta_witness :
    ∃ st1 st2,
      comando ⟨salaPai, [], .nulo, []⟩ (101 :: []) = .continua st1 ∧ st1.atual = salaFolha ∧
      comando (visitar Abi.lp64 inicializarHash st1) (98 :: []) = .continua st2 ∧
      st2.atual = salaPai ∧ st2.stack = [] ∧ st2.stack.length = ([] : List Sala).length :=
  c8_ida_e_volta Abi.lp64 inicializarHash ⟨salaPai, [], .nulo, []⟩ salaFolha [] []
    (by decide) (by decide)

/-- C9: an invalid navigation changes nothing but the output.  In every session state,
the command left when the current room has no left child, the command right when it has
no right child, and the command back when the path stack is empty only print their
message: the loop continues with the same current room, path stack and collected
clues. -/
theorem c9_navegacao_invalida (st : Sessao) (r : Str) :
    (st.atual.esq = .nulo →
      comando st (101 :: r) = .continua (st.registrar .semEsquerda)) ∧
    (st.atual.dir = .nulo →
      comando st (100 :: r) = .continua (st.registrar .semDireita)) ∧
    (st.stack = [] →
      comando st (98 :: r) = .continua (st.registrar .naRaiz)) ∧
    (∀ e, (st.registrar e).atual = st.atual ∧ (st.registrar e).stack = st.stack ∧
      (st.registrar e).bst = st.bst) := by
  refine ⟨fun h => ?_, fun h => ?_, fun h => ?_, fun e => ⟨rfl, rfl, rfl⟩⟩
  · simp only [comando, List.headD_cons, Nat.reduceEqDiff, if_false, if_true, h]
  · simp only [comando, List.headD_cons, Nat.reduceEqDiff, if_false, if_true, h]
  · simp only [comando, List.headD_cons, Nat.reduceEqDiff, if_false, if_true, h]

/-- C9 at the leaf SalaE of the reference map, entered from SalaB: the command right
only prints that there is no room to the right. -/
theorem c9_navegacao_invalida_witness :
    comando ⟨salaE, [salaB], .nulo, []⟩ (100 :: []) =
      .continua ((⟨salaE, [salaB], .nulo, []⟩ : Sessao).registrar .semDireita) :=
  (c9_navegacao_invalida ⟨salaE, [salaB], .nulo, []⟩ []).2.1 (by decide)

/-- C10: for every well-formed map, every command sequence and every state the loop of
`explorarSalas` reaches from the root with no clue collected, taken right after a room
has been shown: the in-order listing of the collected clues is strictly ascending (so
free of duplicates) and its members are exactly the non-empty clues of the rooms shown
so far, the start room included. -/
theorem c10_pistas_coletadas (abi : Abi) (ht : HashTable) (raiz : Sala)
    (entrada : List Str) (antes : List Sessao) (st : Sessao) (depois : List Sessao)
    (hbf : raiz.bemFormada = true)
    (h : trajeto abi ht (sessaoInicial raiz .nulo) entrada = antes ++ st :: depois) :
    Crescente (listarPistas st.bst) ∧ (listarPistas st.bst).Nodup ∧
      ∀ c, c ∈ listarPistas st.bst ↔
        (c ≠ [] ∧ ∃ s ∈ antes ++ [st], s.atual.pista = c) := by
  have h0 : (sessaoInicial raiz .nulo).bemFormada := ⟨hbf, by simp [sessaoInicial]⟩
  obtain ⟨h1, h2⟩ := trajeto_pistas abi ht entrada (sessaoInicial raiz .nulo) antes st depois
    h0 (by simp [sessaoInicial, listarPistas, Crescente]) h
  refine ⟨h1, crescente_nodup h1, fun c => ?_⟩
  rw [h2 c]
  simp [sessaoInicial, listarPistas]

set_option maxRecDepth 100000 in
/-- C10 on the map `salaPai` after the command left: the two clues of `salaPai` and
`salaFolha` are the collected ones. -/
theorem c10_pistas_coletadas_witness :
    Crescente (listarPistas (trajetoExemplo.getLastD (sessaoInicial salaPai .nulo)).bst) ∧
      (listarPistas (trajetoExemplo.getLastD (sessaoInicial salaPai .nulo)).bst).Nodup ∧
      ∀ c, c ∈ listarPistas (trajetoExemplo.getLastD (sessaoInicial salaPai .nulo)).bst ↔
        (c ≠ [] ∧ ∃ s ∈ trajetoExemplo.dropLast ++
          [trajetoExemplo.getLastD (sessaoInicial salaPai .nulo)], s.atual.pista = c) :=
  c10_pistas_coletadas Abi.lp64 inicializarHash salaPai [ascii "e"] trajetoExemplo.dropLast
    (trajetoExemplo.getLastD (sessaoInicial salaPai .nulo)) [] (by decide) (by decide)

/-! ## C11: the value of the hash -/

theorem passoHash_eq (abi : Abi) (h b : Nat) :
    passoHash abi h b =
      (((h : Int) * 33 + charParaInt abi b) % ((2 ^ abi.ulongBits : Nat) : Int)).toNat := by
  unfold passoHash
  simp only []
  congr 1
  rw [Int.ofNat_emod, Int.emod_add_emod]
  push_cast
  rw [add_assoc, Int.emod_add_emod]
  congr 1
  ring

theorem hashString_eq_modular (abi : Abi) (s : Str) :
    hashString abi s = hashModular abi s % HASH_SIZE := by
  unfold hashString hashModular
  congr 2
  funext h b
  exact passoHash_eq abi h b

theorem hashIdeal_concat (s : Str) (b : Nat) :
    hashIdeal (s ++ [b]) = hashIdeal s * 33 + b := by
  simp [hashIdeal, List.foldl_append]

theorem hashModular_concat (abi : Abi) (s : Str) (b : Nat) :
    hashModular abi (s ++ [b]) =
      (((hashModular abi s : Int) * 33 + charParaInt abi b) %
        ((2 ^ abi.ulongBits : Nat) : Int)).toNat := by
  simp [hashModular, List.foldl_append]

theorem hashModular_eq_ideal (abi : Abi) (s : Str)
    (hb : ∀ b ∈ s, b < 128 ∨ abi.charSigned = false)
    (hlim : hashIdeal s < 2 ^ abi.ulongBits) : hashModular abi s = hashIdeal s := by
  induction s using List.reverseRecOn with
  | nil =>
    simp only [hashModular, hashIdeal, List.foldl_nil] at hlim ⊢
    exact Nat.mod_eq_of_lt hlim
  | append_singleton s b ih =>
    rw [hashIdeal_concat] at hlim
    have ih' := ih (fun x hx => hb x (List.mem_append_left _ hx)) (by omega)
    have hc : charParaInt abi b = (b : Int) := by
      unfold charParaInt
      rcases hb b (by simp) with h | h
      · rw [if_neg (by omega)]
      · rw [if_neg (by simp [h])]
    rw [hashModular_concat, hashIdeal_concat, ih', hc]
    have h1 : ((hashIdeal s : Int) * 33 + (b : Int)) = ((hashIdeal s * 33 + b : Nat) : Int) := by
      push_cast; rfl
    rw [h1, ← Int.ofNat_emod, Int.toNat_ofNat]
    exact Nat.mod_eq_of_lt hlim

theorem hashIdeal_limite (s : Str) (hb : ∀ b ∈ s, b < 128) :
    hashIdeal s + 4 ≤ 5385 * 33 ^ s.length := by
  induction s using List.reverseRecOn with
  | nil => simp [hashIdeal]
  | append_singleton s b ih =>
    have ih' := ih (fun x hx => hb x (List.mem_append_left _ hx))
    have hbb : b < 128 := hb b (by simp)
    rw [hashIdeal_concat, List.length_append, List.length_singleton, pow_succ]
    nlinarith

/-- C11, as stated, fails on the LP64 target: for the 16-byte clue "pegadas molhadas"
the hash has wrapped around `2 ^ 64` and its bucket is 5, not the 10 of the unbounded
recurrence; and the single byte 200 is read as the negative `char` -56, which gives
bucket 3, not 4. -/
theorem c11_contraexemplo :
    hashString Abi.lp64 (ascii "pegadas molhadas") ≠
        hashIdeal (ascii "pegadas molhadas") % HASH_SIZE ∧
      hashString Abi.lp64 [200] ≠ hashIdeal [200] % HASH_SIZE := by
  decide

/-- C11, amended: for every string, `hashString` is the rolling hash with seed 5381 and
round `h * 33 + c` computed modulo `2 ^ ulongBits`, `c` being the byte as read through a
plain `char`, reduced modulo 17.  It equals the unbounded recurrence of the
specification modulo 17 whenever no byte is read as negative (every byte is below 128,
or `char` is unsigned) and the unbounded value stays below `2 ^ ulongBits`; with a
64-bit `unsigned long` that covers every string of at most 10 bytes below 128. -/
theorem c11_hash (abi : Abi) (s : Str) :
    hashString abi s = hashModular abi s % HASH_SIZE ∧
    ((∀ b ∈ s, b < 128 ∨ abi.charSigned = false) → hashIdeal s < 2 ^ abi.ulongBits →
      hashString abi s = hashIdeal s % HASH_SIZE) ∧
    (abi.ulongBits = 64 → (∀ b ∈ s, b < 128) → s.length ≤ 10 →
      hashString abi s = hashIdeal s % HASH_SIZE) := by
  refine ⟨hashString_eq_modular abi s, ?_, ?_⟩
  · intro hb hlim
    rw [hashString_eq_modular, hashModular_eq_ideal abi s hb hlim]
  · intro hw hb hlen
    have h1 := hashIdeal_limite s hb
    have h2 : 33 ^ s.length ≤ 33 ^ 10 := Nat.pow_le_pow_right (by decide) hlen
    have hlim : hashIdeal s < 2 ^ abi.ulongBits := by
      rw [hw]
      have h3 : 5385 * 33 ^ s.length ≤ 5385 * 33 ^ 10 := Nat.mul_le_mul_left _ h2
      have h4 : 5385 * 33 ^ 10 < 2 ^ 64 := by norm_num
      omega
    rw [hashString_eq_modular,
      hashModular_eq_ideal abi s (fun b hx => Or.inl (hb b hx)) hlim]

/-- C11, amended, on the 5-byte name "SalaA" on the LP64 target. -/
theorem c11_hash_witness :
    hashString Abi.lp64 (ascii "SalaA") = hashIdeal (ascii "SalaA") % HASH_SIZE :=
  (c11_hash Abi.lp64 (ascii "SalaA")).2.2 rfl (by decide) (by decide)

/-! ## C12, C13, C17 and C20: the shape of the ledger -/

theorem buscar_de_entrada {c : List HashEntry} (hn : (chaves c).Nodup) {e : HashEntry}
    (he : e ∈ c) : buscarNaCadeia e.chave c = some e.suspeito := by
  induction c with
  | nil => simp at he
  | cons x xs ih =>
    unfold chaves at hn ih
    simp only [List.map_cons, List.nodup_cons] at hn
    unfold buscarNaCadeia
    by_cases hx : strcmp x.chave e.chave = 0
    · have hk : x.chave = e.chave := strcmp_eq_zero hx
      rcases List.mem_cons.mp he with h | h
      · rw [if_pos hx, h]
      · exact absurd (List.mem_map.mpr ⟨e, h, hk.symm⟩) hn.1
    · rw [if_neg hx]
      rcases List.mem_cons.mp he with h | h
      · rw [h, strcmp_self] at hx
        exact absurd rfl hx
      · exact ih hn.2 h

theorem getD_de_mem {α : Type} {l : List α} {c d : α} (h : c ∈ l) :
    ∃ j, j < l.length ∧ l.getD j d = c := by
  obtain ⟨j, hj, hjc⟩ := List.getElem_of_mem h
  exact ⟨j, hj, by simp [List.getD_eq_getElem?_getD, List.getElem?_eq_getElem hj, hjc]⟩

theorem soma_set {α : Type} (f : α → Nat) (d : α) (l : List α) (i : Nat) (a : α)
    (h : f a = f (l.getD i d)) : ((l.set i a).map f).sum = (l.map f).sum := by
  induction l generalizing i with
  | nil => simp
  | cons x xs ih =>
    cases i with
    | zero =>
      have h0 : f a = f x := by simpa using h
      simp [h0]
    | succ i =>
      have hs := ih i (by simpa using h)
      simp only [List.set_cons_succ, List.map_cons, List.sum_cons, hs]

theorem sobrescrever_decomp {p s : Str} {c c' : List HashEntry}
    (h : sobrescrever p s c = some c') :
    ∃ antes e depois, c = antes ++ e :: depois ∧ e.chave = p ∧
      (∀ x ∈ antes, x.chave ≠ p) ∧ c' = antes ++ ⟨e.chave, s⟩ :: depois := by
  induction c generalizing c' with
  | nil => simp [sobrescrever] at h
  | cons x xs ih =>
    unfold sobrescrever at h
    split_ifs at h with hx
    · simp only [Option.some.injEq] at h
      exact ⟨[], x, xs, rfl, strcmp_eq_zero hx, by simp, by rw [← h]; rfl⟩
    · cases hr : sobrescrever p s xs with
      | none => simp [hr] at h
      | some c'' =>
        simp only [hr, Option.map_some', Option.some.injEq] at h
        obtain ⟨antes, e, depois, h1, h2, h3, h4⟩ := ih hr
        refine ⟨x :: antes, e, depois, by rw [h1]; rfl, h2, ?_, by rw [← h, h4]; rfl⟩
        intro y hy
        rcases List.mem_cons.mp hy with hy | hy
        · rw [hy]
          exact fun hk => hx ((strcmp_eq_zero_iff _ _).mpr hk)
        · exact h3 y hy

theorem cadeiaNova_ausente {p s : Str} {c : List HashEntry} (h : p ∉ chaves c) :
    cadeiaNova p s c = ⟨p, s⟩ :: c := by
  unfold cadeiaNova
  cases hs : sobrescrever p s c with
  | none => rfl
  | some c' => exact absurd (chaves_sobrescrever hs).2 h

theorem cadeiaNova_presente {p s : Str} {c : List HashEntry} (h : p ∈ chaves c) :
    ∃ antes e depois, c = antes ++ e :: depois ∧ e.chave = p ∧
      (∀ x ∈ antes, x.chave ≠ p) ∧ cadeiaNova p s c = antes ++ ⟨e.chave, s⟩ :: depois := by
  unfold cadeiaNova
  cases hs : sobrescrever p s c with
  | none => exact absurd h (sobrescrever_none hs)
  | some c' => exact sobrescrever_decomp hs

theorem balde_da_chave {abi : Abi} {ht : HashTable} (hi : Integra abi ht) {k : Str} {j : Nat}
    (h : k ∈ chaves (ht.v.getD j [])) : k ∈ chaves (ht.v.getD (hashString abi k) []) := by
  rw [(hi.2.1 j k h).1]
  exact h

theorem getD_inserir (abi : Abi) (ht : HashTable) (hbf : ht.bemFormada) {k : Str} (v : Str)
    (hk : k ≠ []) (j : Nat) :
    (inserirNaHash abi ht (some k) (some v)).v.getD j [] =
      if hashString abi k = j then cadeiaNova k v (ht.v.getD (hashString abi k) [])
      else ht.v.getD j [] := by
  rw [inserirNaHash_eq abi ht v hk]
  simp only [getD_set_lista]
  have hlt : hashString abi k < ht.v.length := by
    rw [hbf]; exact hashString_lt abi k
  simp only [hlt, and_true]

theorem alcancavel_montarMapa (abi : Abi) :
    Alcancavel abi (montarMapa abi inicializarHash).2 := by
  rw [montarMapa_tabela]
  exact alcancavel_inserirVarias abi _ _ Alcancavel.inicial

theorem todasChaves_nodup {abi : Abi} {ht : HashTable} (hi : Integra abi ht) :
    (todasChaves ht).Nodup := by
  obtain ⟨_, h2, h3⟩ := hi
  unfold todasChaves
  rw [List.nodup_flatten]
  constructor
  · intro l hl
    obtain ⟨c, hc, rfl⟩ := List.mem_map.mp hl
    obtain ⟨j, _, hj⟩ := getD_de_mem (d := []) hc
    rw [← hj]
    exact h3 j
  · rw [List.pairwise_iff_getElem]
    intro i j hi hj hij
    simp only [List.length_map] at hi hj
    simp only [List.getElem_map]
    have e1 : ht.v[i] = ht.v.getD i [] := by
      simp [List.getD_eq_getElem?_getD, List.getElem?_eq_getElem hi]
    have e2 : ht.v[j] = ht.v.getD j [] := by
      simp [List.getD_eq_getElem?_getD, List.getElem?_eq_getElem hj]
    rw [e1, e2]
    intro k hk1 hk2
    have := (h2 i k hk1).1
    have := (h2 j k hk2).1
    omega

/-- C12: an empty clue text is a silent no-op.  `inserirPista` with the empty clue
returns the tree unchanged, for every tree; `inserirNaHash` with the empty clue returns
the table unchanged, for every table and suspect; and on every table reachable from the
empty one, `encontrarSuspeito` of the empty clue finds nothing. -/
theorem c12_chave_vazia (abi : Abi) :
    (∀ t : NoPista, inserirPista t (some []) = t) ∧
    (∀ (h : HashTable) (s : Option Str), inserirNaHash abi h (some []) s = h) ∧
    (∀ h : HashTable, Alcancavel abi h → encontrarSuspeito abi h (some []) = none) := by
  refine ⟨fun t => ?_, fun h s => ?_, fun h hr => ?_⟩
  · cases t <;> simp [inserirPista]
  · cases s <;> simp [inserirNaHash]
  · have hi := integra_alcancavel hr
    have hn : ¬ (buscarNaCadeia [] (h.v.getD (hashString abi []) [])).isSome = true := by
      rw [buscar_isSome_iff]
      intro hm
      exact (hi.2.1 _ [] hm).2 rfl
    simp only [encontrarSuspeito]
    cases hb : buscarNaCadeia [] (h.v.getD (hashString abi []) []) with
    | none => rfl
    | some x => rw [hb] at hn; simp at hn

/-- C12 on the reference ledger: the empty clue has no suspect. -/
theorem c12_chave_vazia_witness :
    encontrarSuspeito Abi.lp64 (montarMapa Abi.lp64 inicializarHash).2 (some []) = none :=
  (c12_chave_vazia Abi.lp64).2.2 (montarMapa Abi.lp64 inicializarHash).2
    (alcancavel_montarMapa Abi.lp64)

/-- C13: key uniqueness is an invariant of the ledger.  In every table reachable from
`inicializarHash` by calls of `inserirNaHash`, no key occurs twice, whether in one chain
or in two different chains, and inserting again a key that the table already holds
leaves the number of entries unchanged. -/
theorem c13_chaves_unicas (abi : Abi) (t : HashTable) (h : Alcancavel abi t) :
    (todasChaves t).Nodup ∧ (∀ k, ocorrencias t k ≤ 1) ∧
      ∀ (k : Str) (v : Option Str), k ∈ todasChaves t →
        totalEntradas (inserirNaHash abi t (some k) v) = totalEntradas t := by
  have hi := integra_alcancavel h
  refine ⟨todasChaves_nodup hi, fun k => ?_, fun k v hk => ?_⟩
  · rw [ocorrencias_balde hi k]
    by_cases hm : k ∈ chaves (t.v.getD (hashString abi k) [])
    · rw [contagem_um (hi.2.2 _) hm]
    · rw [contagem_zero hm]; omega
  · cases v with
    | none => simp [inserirNaHash]
    | some v =>
      unfold todasChaves at hk
      obtain ⟨l, hl, hkl⟩ := List.mem_flatten.mp hk
      obtain ⟨c, hc, rfl⟩ := List.mem_map.mp hl
      obtain ⟨j, _, hj⟩ := getD_de_mem (d := []) hc
      rw [← hj] at hkl
      have hne : k ≠ [] := (hi.2.1 j k hkl).2
      have hb := balde_da_chave hi hkl
      rw [inserirNaHash_eq abi t v hne]
      unfold totalEntradas
      apply soma_set List.length []
      have hc := chaves_cadeiaNova k v (t.v.getD (hashString abi k) [])
      rw [if_pos hb] at hc
      have := congrArg List.length hc
      simpa [chaves] using this

set_option maxRecDepth 100000 in
/-- C13 on the reference ledger: inserting the key "bilhete rasgado" again, with
another suspect, leaves the number of entries unchanged. -/
theorem c13_chaves_unicas_witness :
    totalEntradas (inserirNaHash Abi.lp64 (montarMapa Abi.lp64 inicializarHash).2
        (some (ascii "bilhete rasgado")) (some (ascii "Sr. Azul"))) =
      totalEntradas (montarMapa Abi.lp64 inicializarHash).2 :=
  (c13_chaves_unicas Abi.lp64 (montarMapa Abi.lp64 inicializarHash).2
    (alcancavel_montarMapa Abi.lp64)).2.2 (ascii "bilhete rasgado") (some (ascii "Sr. Azul"))
    (by decide)

/-- C17: chain order is insertion order, newest first.  On every reachable table and
for every non-empty key `k`: when `k` is absent from the table, `inserirNaHash(k, v)`
puts the entry `(k, v)` at the head of the bucket `hashString(k)`, followed by the
previous chain unchanged, and leaves every other bucket as it was; when `k` is present,
it replaces the suspect of the one entry with key `k` in that bucket, keeps every other
entry and the order of the chain, and leaves every other bucket as it was, so that the
sequence of keys of every chain is unchanged. -/
theorem c17_ordem_da_cadeia (abi : Abi) (t : HashTable) (h : Alcancavel abi t)
    (k v : Str) (hk : k ≠ []) :
    (k ∉ todasChaves t →
      (inserirNaHash abi t (some k) (some v)).v.getD (hashString abi k) [] =
          ⟨k, v⟩ :: t.v.getD (hashString abi k) [] ∧
        ∀ j, j ≠ hashString abi k →
          (inserirNaHash abi t (some k) (some v)).v.getD j [] = t.v.getD j []) ∧
    (k ∈ todasChaves t →
      (∃ antes e depois,
          t.v.getD (hashString abi k) [] = antes ++ e :: depois ∧ e.chave = k ∧
          (∀ x ∈ antes ++ depois, x.chave ≠ k) ∧
          (inserirNaHash abi t (some k) (some v)).v.getD (hashString abi k) [] =
            antes ++ ⟨k, v⟩ :: depois) ∧
        (∀ j, j ≠ hashString abi k →
          (inserirNaHash abi t (some k) (some v)).v.getD j [] = t.v.getD j []) ∧
        ∀ j, chaves ((inserirNaHash abi t (some k) (some v)).v.getD j []) =
          chaves (t.v.getD j [])) := by
  have hi := integra_alcancavel h
  have hg := getD_inserir abi t hi.1 v hk
  have hoth : ∀ j, j ≠ hashString abi k →
      (inserirNaHash abi t (some k) (some v)).v.getD j [] = t.v.getD j [] := by
    intro j hj
    rw [hg j, if_neg (fun e => hj e.symm)]
  have hmem : k ∈ todasChaves t ↔ k ∈ chaves (t.v.getD (hashString abi k) []) := by
    constructor
    · intro hm
      unfold todasChaves at hm
      obtain ⟨l, hl, hkl⟩ := List.mem_flatten.mp hm
      obtain ⟨c, hc, rfl⟩ := List.mem_map.mp hl
      obtain ⟨j, _, hj⟩ := getD_de_mem (d := []) hc
      rw [← hj] at hkl
      exact balde_da_chave hi hkl
    · intro hm
      unfold todasChaves
      refine List.mem_flatten.mpr ⟨_, List.mem_map.mpr ⟨t.v.getD (hashString abi k) [], ?_, rfl⟩, hm⟩
      have hlt : hashString abi k < t.v.length := by
        rw [hi.1]; exact hashString_lt abi k
      simp only [List.getD_eq_getElem?_getD, List.getElem?_eq_getElem hlt, Option.getD_some]
      exact List.getElem_mem hlt
  refine ⟨fun ha => ⟨?_, hoth⟩, fun hp => ⟨?_, hoth, ?_⟩⟩
  · rw [hg, if_pos rfl, cadeiaNova_ausente (fun hm => ha (hmem.mpr hm))]
  · obtain ⟨antes, e, depois, h1, h2, h3, h4⟩ :=
      cadeiaNova_presente (s := v) (hmem.mp hp)
    refine ⟨antes, e, depois, h1, h2, ?_, by rw [hg, if_pos rfl, h4, h2]⟩
    intro x hx
    rcases List.mem_append.mp hx with hx | hx
    · exact h3 x hx
    · have hn := hi.2.2 (hashString abi k)
      rw [h1] at hn
      unfold chaves at hn
      simp only [List.map_append, List.map_cons] at hn
      have hn2 := (List.nodup_append.mp hn).2.1
      rw [List.nodup_cons] at hn2
      intro hxk
      exact hn2.1 (List.mem_map.mpr ⟨x, hx, by rw [hxk, h2]⟩)
  · intro j
    rw [hg j]
    split_ifs with hj
    · rw [chaves_cadeiaNova, if_pos (hmem.mp hp), hj]
    · rfl

set_option maxRecDepth 100000 in
/-- C17 on the reference ledger with the new key "k": it becomes the head of its
bucket. -/
theorem c17_ordem_da_cadeia_witness :
    (inserirNaHash Abi.lp64 (montarMapa Abi.lp64 inicializarHash).2 (some (ascii "k"))
        (some (ascii "A"))).v.getD (hashString Abi.lp64 (ascii "k")) [] =
      ⟨ascii "k", ascii "A"⟩ ::
        (montarMapa Abi.lp64 inicializarHash).2.v.getD (hashString Abi.lp64 (ascii "k")) [] :=
  ((c17_ordem_da_cadeia Abi.lp64 (montarMapa Abi.lp64 inicializarHash).2
    (alcancavel_montarMapa Abi.lp64) (ascii "k") (ascii "A") (by decide)).1 (by decide)).1

/-- C20: in every table reachable from `inicializarHash`, the table has `HASH_SIZE`
buckets, every entry has a non-empty key and sits in the chain of the bucket
`hashString` of its key, and `hashString` is below `HASH_SIZE` for every string; so the
index used by `inserirNaHash` and `encontrarSuspeito` is inside the array, and the lookup
of the key of any entry of the table finds that entry. -/
theorem c20_balde_certo (abi : Abi) :
    (∀ s : Str, hashString abi s < HASH_SIZE) ∧
    ∀ t : HashTable, Alcancavel abi t →
      t.v.length = HASH_SIZE ∧
      (∀ s : Str, hashString abi s < t.v.length) ∧
      ∀ (j : Nat) (e : HashEntry), e ∈ t.v.getD j [] →
        e.chave ≠ [] ∧ j = hashString abi e.chave ∧
          encontrarSuspeito abi t (some e.chave) = some e.suspeito := by
  refine ⟨hashString_lt abi, fun t h => ?_⟩
  have hi := integra_alcancavel h
  refine ⟨hi.1, fun s => by rw [hi.1]; exact hashString_lt abi s, fun j e he => ?_⟩
  have hk : e.chave ∈ chaves (t.v.getD j []) := List.mem_map.mpr ⟨e, he, rfl⟩
  obtain ⟨h1, h2⟩ := hi.2.1 j e.chave hk
  refine ⟨h2, h1.symm, ?_⟩
  simp only [encontrarSuspeito]
  rw [h1]
  exact buscar_de_entrada (hi.2.2 j) he

set_option maxRecDepth 100000 in
/-- C20 on the reference ledger, for the entry of "pegadas molhadas" in bucket 5. -/
theorem c20_balde_certo_witness :
    ascii "pegadas molhadas" ≠ [] ∧ 5 = hashString Abi.lp64 (ascii "pegadas molhadas") ∧
      encontrarSuspeito Abi.lp64 (montarMapa Abi.lp64 inicializarHash).2
        (some (ascii "pegadas molhadas")) = some (ascii "Sr. Verde") :=
  ((c20_balde_certo Abi.lp64).2 (montarMapa Abi.lp64 inicializarHash).2
    (alcancavel_montarMapa Abi.lp64)).2.2 5 ⟨ascii "pegadas molhadas", ascii "Sr. Verde"⟩
    (by decide)

/-! ## C15 and C16: unknown tokens and room creation -/

set_option maxRecDepth 100000 in
/-- C15, as stated, fails: the tokens "ex" and "sair" are none of the four commands
"e", "d", "b", "s", yet the dispatch reads only their first byte.  In the room `salaPai`
with an empty stack, "ex" moves to the left child and pushes `salaPai`, without any
invalid-command message, and "sair" ends the session. -/
theorem c15_contraexemplo :
    ascii "ex" ∉ [ascii "e", ascii "d", ascii "b", ascii "s"] ∧
    comando ⟨salaPai, [], .nulo, []⟩ (ascii "ex") =
      .continua ⟨salaFolha, [salaPai], .nulo, [.indoEsquerda salaFolha.nome]⟩ ∧
    comando ⟨salaPai, [], .nulo, []⟩ (ascii "ex") ≠
      .continua ((⟨salaPai, [], .nulo, []⟩ : Sessao).registrar .invalido) ∧
    ascii "sair" ∉ [ascii "e", ascii "d", ascii "b", ascii "s"] ∧
    comando ⟨salaPai, [], .nulo, []⟩ (ascii "sair") =
      .saiu ((⟨salaPai, [], .nulo, []⟩ : Sessao).registrar .saindo) := by
  decide

/-- C15, amended: for every token whose first byte is none of 's', 'e', 'd', 'b', the
dispatch only prints that the command is invalid: the loop continues with the same
current room, path stack and collected clues.  The bytes after the first play no part
in the dispatch. -/
theorem c15_token_invalido (st : Sessao) (cmd : Str)
    (h : cmd.headD 0 ≠ 115 ∧ cmd.headD 0 ≠ 101 ∧ cmd.headD 0 ≠ 100 ∧ cmd.headD 0 ≠ 98) :
    comando st cmd = .continua (st.registrar .invalido) ∧
      (st.registrar .invalido).atual = st.atual ∧
      (st.registrar .invalido).stack = st.stack ∧
      (st.registrar .invalido).bst = st.bst ∧
      (st.registrar .invalido).saida = st.saida ++ [.invalido] ∧
      ∀ r : Str, comando st (cmd.headD 0 :: r) = comando st cmd := by
  obtain ⟨h1, h2, h3, h4⟩ := h
  refine ⟨?_, rfl, rfl, rfl, rfl, fun r => ?_⟩
  · simp only [comando, h1, h2, h3, h4, if_false]
  · simp only [comando, List.headD_cons]

/-- C15, amended, for the token "x" in the room `salaPai`. -/
theorem c15_token_invalido_witness :
    comando ⟨salaPai, [], .nulo, []⟩ (ascii "x") =
      .continua ((⟨salaPai, [], .nulo, []⟩ : Sessao).registrar .invalido) :=
  (c15_token_invalido ⟨salaPai, [], .nulo, []⟩ (ascii "x") (by decide)).1

/-- C16: `criarSala` accepts every name and clue.  The room has no neighbours, its name
is the first 63 bytes of the given name and its clue the first 127 bytes of the given
clue, so a name of at most 63 bytes and a clue of at most 127 bytes are kept as they
are; an empty clue, like a `NULL` one, gives a room without clue. -/
theorem c16_criarSala (nome pista : Str) :
    criarSala nome (some pista) = .mk (nome.take 63) (pista.take 127) .nulo .nulo ∧
    (criarSala nome (some pista)).esq = .nulo ∧ (criarSala nome (some pista)).dir = .nulo ∧
    (nome.length ≤ 63 → (criarSala nome (some pista)).nome = nome) ∧
    (pista.length ≤ 127 → (criarSala nome (some pista)).pista = pista) ∧
    (criarSala nome (some [])).pista = [] ∧
    criarSala nome none = .mk (nome.take 63) [] .nulo .nulo := by
  have h0 : criarSala nome (some pista) = .mk (nome.take 63) (pista.take 127) .nulo .nulo := by
    unfold criarSala copiaLimitada MAX_NOME MAX_PISTA
    by_cases hp : pista = []
    · simp [hp]
    · simp [hp]
  refine ⟨h0, by rw [h0]; rfl, by rw [h0]; rfl, fun h => ?_, fun h => ?_, ?_, ?_⟩
  · rw [h0]
    exact List.take_of_length_le h
  · rw [h0]
    exact List.take_of_length_le h
  · simp [criarSala, Sala.pista]
  · simp [criarSala, copiaLimitada, MAX_NOME]

set_option maxRecDepth 100000 in
/-- C16 on the room "Hall" with the clue "pegadas molhadas", kept as given. -/
theorem c16_criarSala_witness :
    (criarSala (ascii "Hall") (some (ascii "pegadas molhadas"))).nome = ascii "Hall" ∧
      (criarSala (ascii "Hall") (some (ascii "pegadas molhadas"))).pista =
        ascii "pegadas molhadas" :=
  ⟨(c16_criarSala (ascii "Hall") (ascii "pegadas molhadas")).2.2.2.1 (by decide),
    (c16_criarSala (ascii "Hall") (ascii "pegadas molhadas")).2.2.2.2.1 (by decide)⟩

/-! ## C18: the list of known suspects -/

theorem foldl_baldes {α β : Type} (f : Nat → List α) (g : β → α → β) (is : List Nat)
    (acc : β) :
    is.foldl (fun a i => (f i).foldl g a) acc = (is.flatMap f).foldl g acc := by
  induction is generalizing acc with
  | nil => rfl
  | cons i is ih => simp only [List.foldl_cons, List.flatMap_cons, List.foldl_append, ih]

theorem suspeitosUnicos_eq (ht : HashTable) :
    suspeitosUnicos ht = (entradas ht).foldl passoSuspeito (some []) := by
  unfold suspeitosUnicos entradas
  exact foldl_baldes _ _ _ _

theorem any_strcmp (l : List Str) (x : Str) :
    l.any (fun u => strcmp u x = 0) = true ↔ x ∈ l := by
  simp only [List.any_eq_true, decide_eq_true_eq, strcmp_eq_zero_iff]
  constructor
  · rintro ⟨u, hu, rfl⟩
    exact hu
  · intro h
    exact ⟨x, h, rfl⟩

theorem foldl_passoSuspeito (es : List HashEntry) :
    ∀ l0 : List Str, l0.Nodup →
      (∀ m : List Str, m.Nodup → (∀ s ∈ m, s ∈ l0 ∨ ∃ e ∈ es, e.suspeito = s) →
        m.length ≤ TAM_SUSPEITOS) →
      ∃ l, es.foldl passoSuspeito (some l0) = some l ∧ l.Nodup ∧
        ∀ s, s ∈ l ↔ s ∈ l0 ∨ ∃ e ∈ es, e.suspeito = s := by
  induction es with
  | nil =>
    intro l0 hn _
    exact ⟨l0, rfl, hn, fun s => by simp⟩
  | cons e es ih =>
    intro l0 hn hB
    by_cases hm : e.suspeito ∈ l0
    · have hstep : passoSuspeito (some l0) e = some l0 := by
        simp only [passoSuspeito, (any_strcmp l0 e.suspeito).mpr hm, if_true]
      obtain ⟨l, h1, h2, h3⟩ := ih l0 hn (fun m hmn hms => hB m hmn (fun s hs => by
        rcases hms s hs with h | ⟨x, hx, hxs⟩
        · exact Or.inl h
        · exact Or.inr ⟨x, List.mem_cons_of_mem _ hx, hxs⟩))
      refine ⟨l, by rw [List.foldl_cons, hstep, h1], h2, fun s => ?_⟩
      rw [h3 s]
      constructor
      · rintro (h | ⟨x, hx, hxs⟩)
        · exact Or.inl h
        · exact Or.inr ⟨x, List.mem_cons_of_mem _ hx, hxs⟩
      · rintro (h | ⟨x, hx, hxs⟩)
        · exact Or.inl h
        · rcases List.mem_cons.mp hx with hx | hx
          · rw [hx] at hxs
            rw [← hxs]
            exact Or.inl hm
          · exact Or.inr ⟨x, hx, hxs⟩
    · have hn' : (l0 ++ [e.suspeito]).Nodup := by
        rw [List.nodup_append]
        refine ⟨hn, by simp, ?_⟩
        intro a ha hb
        rw [List.mem_singleton] at hb
        exact hm (hb ▸ ha)
      have hlen : l0.length < TAM_SUSPEITOS := by
        have := hB (l0 ++ [e.suspeito]) hn' (fun s hs => by
          rcases List.mem_append.mp hs with h | h
          · exact Or.inl h
          · rw [List.mem_singleton] at h
            exact Or.inr ⟨e, List.mem_cons_self _ _, h.symm⟩)
        simp only [List.length_append, List.length_singleton] at this
        omega
      have hany : l0.any (fun u => strcmp u e.suspeito = 0) = false := by
        rw [Bool.eq_false_iff]
        intro h
        exact hm ((any_strcmp l0 e.suspeito).mp h)
      have hstep : passoSuspeito (some l0) e = some (l0 ++ [e.suspeito]) := by
        simp only [passoSuspeito, hany, hlen, if_true, Bool.false_eq_true, if_false]
      obtain ⟨l, h1, h2, h3⟩ := ih (l0 ++ [e.suspeito]) hn' (fun m hmn hms =>
        hB m hmn (fun s hs => by
          rcases hms s hs with h | ⟨x, hx, hxs⟩
          · rcases List.mem_append.mp h with h | h
            · exact Or.inl h
            · rw [List.mem_singleton] at h
              exact Or.inr ⟨e, List.mem_cons_self _ _, h.symm⟩
          · exact Or.inr ⟨x, List.mem_cons_of_mem _ hx, hxs⟩))
      refine ⟨l, by rw [List.foldl_cons, hstep, h1], h2, fun s => ?_⟩
      rw [h3 s]
      constructor
      · rintro (h | ⟨x, hx, hxs⟩)
        · rcases List.mem_append.mp h with h | h
          · exact Or.inl h
          · rw [List.mem_singleton] at h
            exact Or.inr ⟨e, List.mem_cons_self _ _, h.symm⟩
        · exact Or.inr ⟨x, List.mem_cons_of_mem _ hx, hxs⟩
      · rintro (h | ⟨x, hx, hxs⟩)
        · exact Or.inl (List.mem_append_left _ h)
        · rcases List.mem_cons.mp hx with hx | hx
          · rw [hx] at hxs
            exact Or.inl (List.mem_append_right _ (by rw [hxs]; simp))
          · exact Or.inr ⟨x, hx, hxs⟩

theorem suspeitosUnicos_correto (ht : HashTable)
    (hlim : ((entradas ht).map (fun e => e.suspeito)).dedup.length ≤ TAM_SUSPEITOS) :
    ∃ l, suspeitosUnicos ht = some l ∧ l.Nodup ∧
      ∀ s, s ∈ l ↔ ∃ e ∈ entradas ht, e.suspeito = s := by
  rw [suspeitosUnicos_eq]
  obtain ⟨l, h1, h2, h3⟩ := foldl_passoSuspeito (entradas ht) [] List.nodup_nil
    (fun m hmn hms => by
      have hsub : m ⊆ ((entradas ht).map (fun e => e.suspeito)).dedup := by
        intro s hs
        rcases hms s hs with h | ⟨x, hx, hxs⟩
        · simp at h
        · exact List.mem_dedup.mpr (List.mem_map.mpr ⟨x, hx, hxs⟩)
      exact le_trans (List.subperm_of_subset hmn hsub).length_le hlim)
  exact ⟨l, h1, h2, fun s => by rw [h3 s]; simp⟩

theorem mem_entradas (ht : HashTable) (e : HashEntry) :
    e ∈ entradas ht ↔ ∃ j, j < HASH_SIZE ∧ e ∈ ht.v.getD j [] := by
  unfold entradas
  simp only [List.mem_flatMap, List.mem_range]

theorem buscar_some_mem {k v : Str} {c : List HashEntry}
    (h : buscarNaCadeia k c = some v) : ∃ e ∈ c, e.chave = k ∧ e.suspeito = v := by
  induction c with
  | nil => simp [buscarNaCadeia] at h
  | cons x xs ih =>
    unfold buscarNaCadeia at h
    split_ifs at h with hx
    · simp only [Option.some.injEq] at h
      exact ⟨x, List.mem_cons_self _ _, strcmp_eq_zero hx, h⟩
    · obtain ⟨e, he, h1, h2⟩ := ih h
      exact ⟨e, List.mem_cons_of_mem _ he, h1, h2⟩

theorem ultimaEscrita_some_mem {cs : List (Str × Str)} {q v : Str}
    (h : ultimaEscrita cs q = some v) : ∃ c ∈ cs, c.1 = q ∧ c.2 = v := by
  unfold ultimaEscrita at h
  simp only [Option.map_eq_some'] at h
  obtain ⟨c, hc, hv⟩ := h
  have h1 := List.mem_of_find?_eq_some hc
  have h2 := List.find?_some hc
  simp only [decide_eq_true_eq] at h2
  exact ⟨c, List.mem_reverse.mp h1, h2, hv⟩

theorem suspeitos_de_referencia (abi : Abi) (s : Str) :
    (∃ e ∈ entradas (montarMapa abi inicializarHash).2, e.suspeito = s) ↔
      s ∈ [ascii "Sr. Verde", ascii "Sra. Rosa", ascii "Sr. Azul"] := by
  have hi := integra_alcancavel (alcancavel_montarMapa abi)
  have hne : ∀ c ∈ [(ascii "pegadas molhadas", ascii "Sr. Verde"),
      (ascii "fio de cabelo ruivo", ascii "Sra. Rosa"), (pistaFumaca, ascii "Sr. Azul"),
      (ascii "copo com pegadas digitais", ascii "Sra. Rosa"),
      (ascii "bilhete rasgado", ascii "Sr. Verde")], c.1 ≠ [] := by decide
  have hbusca : ∀ k v : Str,
      encontrarSuspeito abi (montarMapa abi inicializarHash).2 (some k) = some v →
      ∃ e ∈ entradas (montarMapa abi inicializarHash).2, e.suspeito = v := by
    intro k v h
    simp only [encontrarSuspeito] at h
    obtain ⟨e, he, _, h2⟩ := buscar_some_mem h
    exact ⟨e, (mem_entradas _ e).mpr ⟨_, hashString_lt abi k, he⟩, h2⟩
  constructor
  · rintro ⟨e, he, rfl⟩
    obtain ⟨j, _, hj⟩ := (mem_entradas _ e).mp he
    have hk : e.chave ∈ chaves ((montarMapa abi inicializarHash).2.v.getD j []) :=
      List.mem_map.mpr ⟨e, hj, rfl⟩
    have hl : encontrarSuspeito abi (montarMapa abi inicializarHash).2 (some e.chave) =
        some e.suspeito := by
      simp only [encontrarSuspeito]
      rw [(hi.2.1 j e.chave hk).1]
      exact buscar_de_entrada (hi.2.2 j) hj
    rw [montarMapa_tabela, encontrar_varias_inicial abi _ hne] at hl
    obtain ⟨c, hc, _, hv⟩ := ultimaEscrita_some_mem hl
    rw [← hv]
    have hvals : ∀ c ∈ [(ascii "pegadas molhadas", ascii "Sr. Verde"),
        (ascii "fio de cabelo ruivo", ascii "Sra. Rosa"), (pistaFumaca, ascii "Sr. Azul"),
        (ascii "copo com pegadas digitais", ascii "Sra. Rosa"),
        (ascii "bilhete rasgado", ascii "Sr. Verde")],
        c.2 ∈ [ascii "Sr. Verde", ascii "Sra. Rosa", ascii "Sr. Azul"] := by decide
    exact hvals c hc
  · intro hs
    simp only [List.mem_cons, List.mem_singleton, List.not_mem_nil, or_false] at hs
    rcases hs with rfl | rfl | rfl
    · apply hbusca (ascii "pegadas molhadas")
      rw [montarMapa_tabela, encontrar_varias_inicial abi _ hne]
      decide
    · apply hbusca (ascii "fio de cabelo ruivo")
      rw [montarMapa_tabela, encontrar_varias_inicial abi _ hne]
      decide
    · apply hbusca pistaFumaca
      rw [montarMapa_tabela, encontrar_varias_inicial abi _ hne]
      decide

/-- C18: for every ledger whose entries name at most 64 distinct suspects, the scan of
`main` ends with a list that holds every suspect named by an entry of the ledger,
nothing else, and no name twice; for the reference ledger it is a list of exactly the
three names "Sr. Verde", "Sra. Rosa" and "Sr. Azul", in the order the buckets give. -/
theorem c18_suspeitos_conhecidos (abi : Abi) :
    (∀ ht : HashTable,
      ((entradas ht).map (fun e => e.suspeito)).dedup.length ≤ TAM_SUSPEITOS →
      ∃ l, suspeitosUnicos ht = some l ∧ l.Nodup ∧
        ∀ s, s ∈ l ↔ ∃ e ∈ entradas ht, e.suspeito = s) ∧
    ∃ l, suspeitosUnicos (montarMapa abi inicializarHash).2 = some l ∧
      l.Perm [ascii "Sr. Verde", ascii "Sra. Rosa", ascii "Sr. Azul"] := by
  refine ⟨suspeitosUnicos_correto, ?_⟩
  have hsub : ∀ s ∈ (entradas (montarMapa abi inicializarHash).2).map (fun e => e.suspeito),
      s ∈ [ascii "Sr. Verde", ascii "Sra. Rosa", ascii "Sr. Azul"] := by
    intro s hs
    obtain ⟨e, he, hes⟩ := List.mem_map.mp hs
    exact (suspeitos_de_referencia abi s).mp ⟨e, he, hes⟩
  have hlim : ((entradas (montarMapa abi inicializarHash).2).map
      (fun e => e.suspeito)).dedup.length ≤ TAM_SUSPEITOS := by
    have h3 := (List.subperm_of_subset (List.nodup_dedup _)
      (fun s hs => hsub s (List.mem_dedup.mp hs))).length_le
    simp only [List.length_cons, List.length_nil] at h3
    unfold TAM_SUSPEITOS
    omega
  obtain ⟨l, h1, h2, h3⟩ := suspeitosUnicos_correto _ hlim
  refine ⟨l, h1, (List.perm_ext_iff_of_nodup h2 (by decide)).mpr (fun s => ?_)⟩
  rw [h3 s, suspeitos_de_referencia abi s]

set_option maxRecDepth 100000 in
/-- C18 on the reference ledger for the LP64 target, whose buckets give the order
"Sr. Azul", "Sr. Verde", "Sra. Rosa". -/
theorem c18_suspeitos_conhecidos_witness :
    ∃ l, suspeitosUnicos (montarMapa Abi.lp64 inicializarHash).2 = some l ∧ l.Nodup ∧
      ∀ s, s ∈ l ↔ ∃ e ∈ entradas (montarMapa Abi.lp64 inicializarHash).2, e.suspeito = s :=
  (c18_suspeitos_conhecidos Abi.lp64).1 (montarMapa Abi.lp64 inicializarHash).2 (by decide)

/-! ## C19: the path stack -/

theorem comando_casos (st : Sessao) (cmd : Str) :
    comando st cmd = .saiu (st.registrar .saindo) ∨
    (∃ ev, ev.ehSinal = false ∧ comando st cmd = .continua (st.registrar ev)) ∨
    (∃ filho ev, ev.ehSinal = false ∧
      (st.atual.esq = .aponta filho ∨ st.atual.dir = .aponta filho) ∧
      st.stack.length < TAM_PILHA ∧
      comando st cmd = .continua ⟨filho, st.atual :: st.stack, st.bst, st.saida ++ [ev]⟩) ∨
    (∃ filho, (st.atual.esq = .aponta filho ∨ st.atual.dir = .aponta filho) ∧
      ¬ st.stack.length < TAM_PILHA ∧ comando st cmd = .indefinido) ∨
    (∃ topo resto ev, ev.ehSinal = false ∧ st.stack = topo :: resto ∧
      comando st cmd = .continua ⟨topo, resto, st.bst, st.saida ++ [ev]⟩) := by
  by_cases h1 : cmd.headD 0 = 115
  · left
    simp only [comando, h1, if_true]
  by_cases h2 : cmd.headD 0 = 101
  · cases he : st.atual.esq with
    | nulo =>
      right; left
      refine ⟨.semEsquerda, rfl, ?_⟩
      simp only [comando, Nat.reduceEqDiff, h1, h2, he, if_true, if_false]
    | aponta filho =>
      by_cases hc : st.stack.length < TAM_PILHA
      · right; right; left
        refine ⟨filho, .indoEsquerda filho.nome, rfl, Or.inl rfl, hc, ?_⟩
        simp only [comando, Nat.reduceEqDiff, h1, h2, he, hc, if_true, if_false]
      · right; right; right; left
        refine ⟨filho, Or.inl rfl, hc, ?_⟩
        simp only [comando, Nat.reduceEqDiff, h1, h2, he, hc, if_true, if_false]
  by_cases h3 : cmd.headD 0 = 100
  · cases he : st.atual.dir with
    | nulo =>
      right; left
      refine ⟨.semDireita, rfl, ?_⟩
      simp only [comando, Nat.reduceEqDiff, h1, h2, h3, he, if_true, if_false]
    | aponta filho =>
      by_cases hc : st.stack.length < TAM_PILHA
      · right; right; left
        refine ⟨filho, .indoDireita filho.nome, rfl, Or.inr rfl, hc, ?_⟩
        simp only [comando, Nat.reduceEqDiff, h1, h2, h3, he, hc, if_true, if_false]
      · right; right; right; left
        refine ⟨filho, Or.inr rfl, hc, ?_⟩
        simp only [comando, Nat.reduceEqDiff, h1, h2, h3, he, hc, if_true, if_false]
  by_cases h4 : cmd.headD 0 = 98
  · cases hst : st.stack with
    | nil =>
      right; left
      refine ⟨.naRaiz, rfl, ?_⟩
      simp only [comando, Nat.reduceEqDiff, h1, h2, h3, h4, hst, if_true, if_false]
    | cons topo resto =>
      right; right; right; right
      refine ⟨topo, resto, .voltando topo.nome, rfl, rfl, ?_⟩
      simp only [comando, Nat.reduceEqDiff, h1, h2, h3, h4, hst, if_true, if_false]
  · right; left
    refine ⟨.invalido, rfl, ?_⟩
    simp only [comando, h1, h2, h3, h4, if_false]

theorem altura_filho {s f : Sala} (h : s.esq = .aponta f ∨ s.dir = .aponta f) :
    f.altura + 1 ≤ s.altura := by
  cases s with
  | mk n p e d =>
    simp only [Sala.esq, Sala.dir] at h
    simp only [Sala.altura]
    rcases h with h | h
    · rw [h]
      simp only [SalaPtr.altura]
      exact le_max_left _ _
    · rw [h]
      simp only [SalaPtr.altura]
      exact le_max_right _ _

theorem ancestrais_altura {raiz : Sala} {pilha : List Sala} :
    ∀ {a : Sala}, ancestrais raiz a pilha = true → pilha.length + a.altura ≤ raiz.altura := by
  induction pilha with
  | nil =>
    intro a h
    simp only [ancestrais, decide_eq_true_eq] at h
    rw [h]
    simp
  | cons p resto ih =>
    intro a h
    simp only [ancestrais, Bool.and_eq_true, Bool.or_eq_true, decide_eq_true_eq] at h
    have h1 := altura_filho h.1
    have h2 := ih h.2
    simp only [List.length_cons]
    omega

theorem ancestrais_alcancavel {abi : Abi} {ht : HashTable} {raiz : Sala} {st : Sessao}
    (h : SessaoAlcancavel abi ht raiz st) : ancestrais raiz st.atual st.stack = true := by
  induction h with
  | entrada bst => simp [sessaoInicial, ancestrais]
  | visita _ ih => rw [visitar_atual, visitar_stack]; exact ih
  | @passo st st' cmd _ hc ih =>
    rcases comando_casos st cmd with h | ⟨ev, _, h⟩ | ⟨f, ev, _, hf, _, h⟩ | ⟨f, _, _, h⟩ |
      ⟨topo, resto, ev, _, hst, h⟩
    · rw [h] at hc; simp at hc
    · rw [h] at hc
      simp only [Passo.continua.injEq] at hc
      rw [← hc]
      exact ih
    · rw [h] at hc
      simp only [Passo.continua.injEq] at hc
      rw [← hc]
      simp only [ancestrais, Bool.and_eq_true, Bool.or_eq_true, decide_eq_true_eq]
      exact ⟨hf, ih⟩
    · rw [h] at hc; simp at hc
    · rw [h] at hc
      simp only [Passo.continua.injEq] at hc
      rw [← hc]
      rw [hst] at ih
      simp only [ancestrais, Bool.and_eq_true] at ih
      exact ih.2

theorem comando_definido {raiz : Sala} {st : Sessao}
    (ha : ancestrais raiz st.atual st.stack = true) (hr : raiz.altura ≤ TAM_PILHA)
    (cmd : Str) : comando st cmd ≠ .indefinido := by
  intro hc
  have hb := ancestrais_altura ha
  rcases comando_casos st cmd with h | ⟨ev, _, h⟩ | ⟨f, ev, _, _, _, h⟩ | ⟨f, hf, hn, _⟩ |
    ⟨topo, resto, ev, _, _, h⟩
  · rw [h] at hc; simp at hc
  · rw [h] at hc; simp at hc
  · rw [h] at hc; simp at hc
  · have := altura_filho hf
    omega
  · rw [h] at hc; simp at hc

theorem laco_definido (abi : Abi) (ht : HashTable) {raiz : Sala}
    (hr : raiz.altura ≤ TAM_PILHA) (entrada : List Str) :
    ∀ st : Sessao, SessaoAlcancavel abi ht raiz st →
      (laco abi ht st entrada).isSome = true := by
  induction entrada with
  | nil => intro st _; rfl
  | cons cmd resto ih =>
    intro st hst
    have hv := SessaoAlcancavel.visita hst
    simp only [laco]
    cases hc : comando (visitar abi ht st) cmd with
    | continua st' => exact ih st' (SessaoAlcancavel.passo cmd hv hc)
    | saiu st' => rfl
    | indefinido => exact absurd hc (comando_definido (ancestrais_alcancavel hv) hr cmd)

/-- C19: in every state that `explorarSalas` reaches from the root with an empty stack,
the path stack lists the proper ancestors of the current room, from its parent at the
top down to the root at the bottom, so its length `top + 1` is the depth of the current
room and, with the levels below the current room, never exceeds the levels below the
root.  The command back with a non-empty stack moves to the top of the stack, which is
the parent of the current room, and with an empty stack the current room is the root.
Consequently, on a map with no room deeper than 128 levels below the root, a push
always finds fewer than 128 rooms on the stack (the index written is at most 127), no
command is undefined, and the loop runs to its end on every input; a pop is only made
from a non-empty stack. -/
theorem c19_pilha_do_caminho (abi : Abi) (ht : HashTable) (raiz : Sala) (st : Sessao)
    (h : SessaoAlcancavel abi ht raiz st) :
    ancestrais raiz st.atual st.stack = true ∧
    st.stack.length + st.atual.altura ≤ raiz.altura ∧
    (st.stack = [] → st.atual = raiz) ∧
    (∀ (topo : Sala) (resto : List Sala) (r : Str), st.stack = topo :: resto →
      (topo.esq = .aponta st.atual ∨ topo.dir = .aponta st.atual) ∧
      ∃ st', comando st (98 :: r) = .continua st' ∧ st'.atual = topo ∧ st'.stack = resto) ∧
    (raiz.altura ≤ TAM_PILHA →
      (∀ cmd : Str, comando st cmd ≠ .indefinido) ∧
      (∀ (cmd : Str) (st' : Sessao), comando st cmd = .continua st' →
        st'.stack.length ≤ TAM_PILHA) ∧
      ∀ entrada : List Str, (laco abi ht st entrada).isSome = true) := by
  have ha := ancestrais_alcancavel h
  refine ⟨ha, ancestrais_altura ha, ?_, ?_, ?_⟩
  · intro hs
    rw [hs] at ha
    simpa [ancestrais] using ha
  · intro topo resto r hs
    rw [hs] at ha
    simp only [ancestrais, Bool.and_eq_true, Bool.or_eq_true, decide_eq_true_eq] at ha
    refine ⟨ha.1, ⟨topo, resto, st.bst, st.saida ++ [.voltando topo.nome]⟩, ?_, rfl, rfl⟩
    simp only [comando, List.headD_cons, Nat.reduceEqDiff, if_false, if_true, hs]
  · intro hr
    refine ⟨comando_definido ha hr, ?_, fun entrada => laco_definido abi ht hr entrada st h⟩
    intro cmd st' hc
    have hb := ancestrais_altura (ancestrais_alcancavel (SessaoAlcancavel.passo cmd h hc))
    omega

set_option maxRecDepth 100000 in
/-- C19 on the map `salaPai` after the command left: the stack holds `salaPai`, the
parent of the current room `salaFolha`, back returns to it, and the loop is defined on
the input "b". -/
theorem c19_pilha_do_caminho_witness :
    ((salaPai.esq = .aponta salaFolha ∨ salaPai.dir = .aponta salaFolha) ∧
      ∃ st', comando ⟨salaFolha, [salaPai], .nulo,
          [.comeca salaPai.nome, .indoEsquerda salaFolha.nome]⟩ (98 :: []) = .continua st' ∧
        st'.atual = salaPai ∧ st'.stack = []) ∧
    (laco Abi.lp64 inicializarHash ⟨salaFolha, [salaPai], .nulo,
      [.comeca salaPai.nome, .indoEsquerda salaFolha.nome]⟩ [ascii "b"]).isSome = true :=
  ⟨(c19_pilha_do_caminho Abi.lp64 inicializarHash salaPai
      ⟨salaFolha, [salaPai], .nulo, [.comeca salaPai.nome, .indoEsquerda salaFolha.nome]⟩
      (SessaoAlcancavel.passo (ascii "e") (SessaoAlcancavel.entrada .nulo)
        (by decide))).2.2.2.1 salaPai [] [] rfl,
    ((c19_pilha_do_caminho Abi.lp64 inicializarHash salaPai
      ⟨salaFolha, [salaPai], .nulo, [.comeca salaPai.nome, .indoEsquerda salaFolha.nome]⟩
      (SessaoAlcancavel.passo (ascii "e") (SessaoAlcancavel.entrada .nulo)
        (by decide))).2.2.2.2 (by decide)).2.2 [ascii "b"]⟩

/-! ## C14: a clue is collected once -/

theorem buscaPista_completa {p : Str} {t : NoPista} (hc : Crescente (listarPistas t))
    (hp : p ∈ listarPistas t) : buscaPista p t = true := by
  induction t with
  | nulo => simp [listarPistas] at hp
  | no k l r ihl ihr =>
    unfold Crescente at hc ihl ihr
    simp only [listarPistas, List.pairwise_append, List.pairwise_cons, List.mem_cons] at hc
    obtain ⟨hl, ⟨hkr, hr⟩, hlr⟩ := hc
    simp only [listarPistas, List.mem_append, List.mem_cons] at hp
    simp only [buscaPista]
    rcases hp with hp | hp | hp
    · have h1 : strcmp p k < 0 := hlr p hp k (Or.inl rfl)
      rw [if_neg (by omega), if_pos h1]
      exact ihl hl hp
    · rw [hp, strcmp_self]
      simp
    · have h1 : 0 < strcmp p k := (strcmp_gt_iff p k).mpr (hkr p hp)
      rw [if_neg (by omega), if_neg (by omega)]
      exact ihr hr hp

theorem visitar_sinais (abi : Abi) (ht : HashTable) (st : Sessao) :
    sinais (visitar abi ht st).saida =
      sinais st.saida ++
        (if st.atual.pista = [] then []
         else [if buscaPista st.atual.pista st.bst = true then Evento.presente st.atual.pista
               else Evento.encontrou st.atual.pista]) := by
  unfold visitar
  simp only [Sessao.registrar]
  by_cases h1 : st.atual.pista = []
  · simp [h1, sinais, List.filter_append, Evento.ehSinal]
  · by_cases h2 : buscaPista st.atual.pista st.bst = true
    · simp only [h1, h2, ne_eq, not_false_eq_true, if_true, if_false, Bool.true_eq_false]
      split <;> simp [sinais, List.filter_append, Evento.ehSinal]
    · have h2' : buscaPista st.atual.pista st.bst = false := by simpa using h2
      simp only [h1, h2', ne_eq, not_false_eq_true, if_true, if_false, Bool.false_eq_true]
      split <;> simp [sinais, List.filter_append, Evento.ehSinal]

theorem sinaisEsperados_congr (cs : List Str) :
    ∀ V V' : List Str, (∀ c, c ∈ V ↔ c ∈ V') →
      sinaisEsperados V cs = sinaisEsperados V' cs := by
  induction cs with
  | nil => intro V V' _; rfl
  | cons x xs ih =>
    intro V V' h
    simp only [sinaisEsperados, h x]
    rw [ih (x :: V) (x :: V') (fun c => by simp [h c])]

theorem pistasMostradas_cons (st : Sessao) (resto : List Sessao) :
    pistasMostradas (st :: resto) =
      if st.atual.pista = [] then pistasMostradas resto
      else st.atual.pista :: pistasMostradas resto := by
  unfold pistasMostradas
  by_cases h : st.atual.pista = []
  · simp [h]
  · simp [h]

theorem comando_sinais {st st' : Sessao} {cmd : Str} (h : comando st cmd = .continua st') :
    sinais st'.saida = sinais st.saida := by
  rcases comando_casos st cmd with h1 | ⟨ev, hev, h1⟩ | ⟨f, ev, hev, _, _, h1⟩ | ⟨f, _, _, h1⟩ |
    ⟨topo, resto, ev, hev, _, h1⟩
  · rw [h1] at h; simp at h
  · rw [h1] at h
    simp only [Passo.continua.injEq] at h
    rw [← h]
    simp [sinais, Sessao.registrar, List.filter_append, hev]
  · rw [h1] at h
    simp only [Passo.continua.injEq] at h
    rw [← h]
    simp [sinais, List.filter_append, hev]
  · rw [h1] at h; simp at h
  · rw [h1] at h
    simp only [Passo.continua.injEq] at h
    rw [← h]
    simp [sinais, List.filter_append, hev]

theorem visitar_sinais_esperados (abi : Abi) (ht : HashTable) {st : Sessao} {V : List Str}
    (hbf : st.atual.bemFormada = true) (hc : Crescente (listarPistas st.bst))
    (hV : ∀ c, c ∈ V ↔ c ∈ listarPistas st.bst) :
    sinais (visitar abi ht st).saida =
        sinais st.saida ++ sinaisEsperados V (pistasMostradas [visitar abi ht st]) ∧
      ∀ c, c ∈ (if st.atual.pista = [] then V else st.atual.pista :: V) ↔
        c ∈ listarPistas (visitar abi ht st).bst := by
  obtain ⟨_, hv2⟩ := visitar_pistas abi ht hbf hc
  constructor
  · rw [visitar_sinais, pistasMostradas_cons, visitar_atual]
    by_cases h1 : st.atual.pista = []
    · simp [h1, pistasMostradas, sinaisEsperados]
    · simp only [h1, if_false, pistasMostradas, List.map_nil, List.filter_nil, sinaisEsperados]
      by_cases h2 : st.atual.pista ∈ V
      · rw [if_pos (buscaPista_completa hc ((hV _).mp h2)), if_pos h2]
      · have h3 : ¬ buscaPista st.atual.pista st.bst = true :=
          fun hb => h2 ((hV _).mpr (buscaPista_mem hb))
        rw [if_neg h3, if_neg h2]
  · intro c
    rw [hv2 c]
    by_cases h1 : st.atual.pista = []
    · simp only [h1, if_true, hV c]
      constructor
      · exact Or.inl
      · rintro (h | ⟨h2, h3⟩)
        · exact h
        · exact absurd h3.symm h2
    · simp only [h1, if_false, List.mem_cons, hV c]
      constructor
      · rintro (h | h)
        · exact Or.inr ⟨by rw [h]; exact h1, h.symm⟩
        · exact Or.inl h
      · rintro (h | ⟨_, h3⟩)
        · exact Or.inr h
        · exact Or.inl h3.symm

theorem trajeto_sinais (abi : Abi) (ht : HashTable) (cmds : List Str) :
    ∀ (st0 : Sessao) (V : List Str) (antes : List Sessao) (st : Sessao)
      (depois : List Sessao),
      st0.bemFormada → Crescente (listarPistas st0.bst) →
      (∀ c, c ∈ V ↔ c ∈ listarPistas st0.bst) →
      trajeto abi ht st0 cmds = antes ++ st :: depois →
      sinais st.saida =
        sinais st0.saida ++ sinaisEsperados V (pistasMostradas (antes ++ [st])) := by
  induction cmds with
  | nil =>
    intro st0 V antes st depois hbf hc hV h
    cases antes with
    | nil =>
      simp only [trajeto, List.nil_append, List.cons.injEq] at h
      rw [← h.1]
      exact (visitar_sinais_esperados abi ht hbf.1 hc hV).1
    | cons a as =>
      simp only [trajeto, List.cons_append, List.cons.injEq] at h
      exact absurd h.2 (by simp)
  | cons cmd cs ih =>
    intro st0 V antes st depois hbf hc hV h
    obtain ⟨hs1, hs2⟩ := visitar_sinais_esperados abi ht hbf.1 hc hV
    cases antes with
    | nil =>
      simp only [trajeto, List.nil_append, List.cons.injEq] at h
      rw [← h.1]
      exact hs1
    | cons a as =>
      simp only [trajeto, List.cons_append, List.cons.injEq] at h
      obtain ⟨ha, hrest⟩ := h
      cases hcmd : comando (visitar abi ht st0) cmd with
      | continua st' =>
        rw [hcmd] at hrest
        simp only at hrest
        obtain ⟨hb, hbf'⟩ := comando_continua hcmd (visitar_bemFormada abi ht hbf)
        have hc' : Crescente (listarPistas st'.bst) := by
          rw [hb]; exact (visitar_pistas abi ht hbf.1 hc).1
        have hi := ih st' (if st0.atual.pista = [] then V else st0.atual.pista :: V) as st
          depois hbf' hc' (fun c => by rw [hb]; exact hs2 c) hrest
        rw [hi, comando_sinais hcmd, hs1, ← ha, List.append_assoc]
        congr 1
        rw [List.cons_append, pistasMostradas_cons, pistasMostradas_cons, visitar_atual]
        by_cases h1 : st0.atual.pista = []
        · simp [h1, pistasMostradas, sinaisEsperados]
        · simp [h1, pistasMostradas, sinaisEsperados]
      | saiu st' =>
        rw [hcmd] at hrest
        exact absurd hrest (by simp)
      | indefinido =>
        rw [hcmd] at hrest
        exact absurd hrest (by simp)

theorem encontrou_esperado (cs : List Str) (c : Str) :
    ∀ V : List Str,
      (sinaisEsperados V cs).countP (fun e => e = Evento.encontrou c) ≤
        if c ∈ V then 0 else 1 := by
  induction cs with
  | nil => intro V; simp [sinaisEsperados]
  | cons x xs ih =>
    intro V
    have hi := ih (x :: V)
    simp only [sinaisEsperados, List.countP_cons]
    by_cases hx : x ∈ V
    · simp only [hx, if_true, reduceCtorEq, decide_False, Bool.false_eq_true, if_false]
      by_cases hcV : c ∈ V
      · rw [if_pos (List.mem_cons_of_mem _ hcV)] at hi
        rw [if_pos hcV]
        omega
      · rw [if_neg hcV]
        split_ifs at hi <;> omega
    · simp only [hx, if_false, Evento.encontrou.injEq]
      by_cases hxc : x = c
      · subst hxc
        rw [if_pos (List.mem_cons_self _ _)] at hi
        rw [if_neg hx]
        simp only [decide_True, if_true]
        omega
      · simp only [hxc, decide_False, Bool.false_eq_true, if_false]
        have hiff : c ∈ x :: V ↔ c ∈ V := by
          simp only [List.mem_cons]
          constructor
          · rintro (h | h)
            · exact absurd h.symm hxc
            · exact h
          · exact Or.inr
        simp only [hiff] at hi
        omega

/-- C14: a clue is collected once.  For every well-formed map, every command sequence
and every state the loop reaches from the root with no clue collected, taken right after
a room has been shown: the messages about clues printed so far are exactly those the
specification prescribes for the rooms shown so far (a clue text is announced as newly
found on the first entry into a room carrying it and as already collected on every later
entry, also into another room with the same text); so each text is announced as newly
found at most once; and every clue collected in an earlier state is still collected. -/
theorem c14_coleta_unica (abi : Abi) (ht : HashTable) (raiz : Sala)
    (entrada : List Str) (antes : List Sessao) (st : Sessao) (depois : List Sessao)
    (hbf : raiz.bemFormada = true)
    (h : trajeto abi ht (sessaoInicial raiz .nulo) entrada = antes ++ st :: depois) :
    sinais st.saida = sinaisEsperados [] (pistasMostradas (antes ++ [st])) ∧
    (∀ c, st.saida.countP (fun e => e = Evento.encontrou c) ≤ 1) ∧
    (∀ s ∈ antes, ∀ c ∈ listarPistas s.bst, c ∈ listarPistas st.bst) := by
  have h0 : (sessaoInicial raiz .nulo).bemFormada := ⟨hbf, by simp [sessaoInicial]⟩
  have hc0 : Crescente (listarPistas (sessaoInicial raiz .nulo).bst) := by
    simp [sessaoInicial, listarPistas, Crescente]
  have hs := trajeto_sinais abi ht entrada (sessaoInicial raiz .nulo) [] antes st depois
    h0 hc0 (fun c => by simp [sessaoInicial, listarPistas]) h
  have hs0 : sinais (sessaoInicial raiz .nulo).saida = [] := by
    simp [sinais, sessaoInicial, Evento.ehSinal]
  rw [hs0, List.nil_append] at hs
  refine ⟨hs, fun c => ?_, fun s hsm c hcm => ?_⟩
  · have hcount : st.saida.countP (fun e => e = Evento.encontrou c) =
        (sinais st.saida).countP (fun e => e = Evento.encontrou c) := by
      unfold sinais
      rw [List.countP_filter]
      apply List.countP_congr
      intro e _
      simp only [decide_eq_true_eq, Bool.and_eq_true]
      constructor
      · intro he
        exact ⟨he, by rw [he]; rfl⟩
      · exact fun he => he.1
    rw [hcount, hs]
    have := encontrou_esperado (pistasMostradas (antes ++ [st])) c []
    simpa using this
  · obtain ⟨a1, a2, rfl⟩ := List.append_of_mem hsm
    have hA : trajeto abi ht (sessaoInicial raiz .nulo) entrada =
        a1 ++ s :: (a2 ++ st :: depois) := by
      rw [h]; simp
    obtain ⟨_, hm1⟩ := trajeto_pistas abi ht entrada _ a1 s _ h0 hc0 hA
    obtain ⟨_, hm2⟩ := trajeto_pistas abi ht entrada _ (a1 ++ s :: a2) st depois h0 hc0 h
    rw [hm2 c]
    rcases (hm1 c).mp hcm with h1 | ⟨h1, x, hx, hxc⟩
    · exact Or.inl h1
    · refine Or.inr ⟨h1, x, ?_, hxc⟩
      simp only [List.mem_append, List.mem_cons, List.mem_singleton, List.not_mem_nil,
        or_false] at hx ⊢
      rcases hx with hx | hx
      · exact Or.inl (Or.inl hx)
      · exact Or.inl (Or.inr (Or.inl hx))

set_option maxRecDepth 100000 in
/-- C14 on the map `salaDupla`, whose two rooms carry the same clue "x": the clue is
announced as newly found in the root and as already collected in the left child. -/
theorem c14_coleta_unica_witness :
    sinais (trajetoDuplo.getLastD (sessaoInicial salaDupla .nulo)).saida =
      [Evento.encontrou (ascii "x"), Evento.presente (ascii "x")] :=
  (c14_coleta_unica Abi.lp64 inicializarHash salaDupla [ascii "e"] trajetoDuplo.dropLast
    (trajetoDuplo.getLastD (sessaoInicial salaDupla .nulo)) [] (by decide) (by decide)).1.trans
    (by decide)

end DetectiveQuest
